import Mathlib

/-!
Verification of the `BoundsTree` data structure from `src/bounds_tree.rs`.

The Rust code is shallowly embedded as follows:

* Coordinates (`f32` in the source, restricted by the spec to finite non-NaN
  values) are modelled as rationals `ℚ`.  On finite floats the operations the
  code uses on coordinates are `min`, `max` and comparisons, which are exact
  and agree with the rational order; the only rounding operation,
  `half_perimeter`'s `width + height`, is modelled exactly and is used by the
  code solely to pick a descent branch, which none of the verified properties
  depend on.
* The `u32` order counters are modelled as `Nat` (the spec's domain is one
  accumulation pass; overflow of a `+1`-per-insert counter is out of scope).
* The node arena (`Vec<Node<T>>`) is a `List (Node T)`; arena indices are
  `Nat`.  In-place mutation becomes explicit state passing.
* The `while` loop of `insert` and the recursions over arena indices
  (`collect_max_ordering`, the iterator) are written with an explicit fuel
  parameter; exhausted fuel, out-of-range indices and the `unreachable!()`
  panics all become `none`, so `insert` returns `Option`.
-/

set_option maxHeartbeats 1000000

/-- A 2D point, `Point` from the source (`x`, `y` coordinates). -/
structure Point where
  x : ℚ
  y : ℚ
deriving DecidableEq

/-- An axis-aligned rectangle, `Bounds` from the source. -/
structure Bounds where
  min : Point
  max : Point
deriving DecidableEq

/-- Source `Bounds::merge`: the smallest rectangle containing both operands. -/
def Bounds.merge (self other : Bounds) : Bounds :=
  { min := { x := Min.min self.min.x other.min.x
             y := Min.min self.min.y other.min.y }
    max := { x := Max.max self.max.x other.max.x
             y := Max.max self.max.y other.max.y } }

/-- Source `Bounds::intersects`: rectangles intersect unless separated along
an axis; touching along an edge does not count as intersecting. -/
def Bounds.intersects (self other : Bounds) : Bool :=
  !(self.min.x ≥ other.max.x
    || self.max.x ≤ other.min.x
    || self.min.y ≥ other.max.y
    || self.max.y ≤ other.min.y)

/-- Source `Bounds::half_perimeter`: width + height. -/
def Bounds.half_perimeter (self : Bounds) : ℚ :=
  (self.max.x - self.min.x) + (self.max.y - self.min.y)

/-- Source `Node<T>`: a leaf holds bounds, a payload and an order; an internal
node holds two child arena indices, merged bounds and the maximum order of its
subtree. -/
inductive Node (T : Type) where
  | leaf (bounds : Bounds) (data : T) (order : Nat)
  | internal (left : Nat) (right : Nat) (bounds : Bounds) (max_ordering : Nat)
deriving DecidableEq

/-- Source `Node::bounds`. -/
def Node.bounds {T : Type} : Node T → Bounds
  | .leaf b _ _ => b
  | .internal _ _ b _ => b

/-- Source `Node::max_ordering`. -/
def Node.max_ordering {T : Type} : Node T → Nat
  | .leaf _ _ o => o
  | .internal _ _ _ m => m

/-- Source `BoundsTree<T>`: optional root index, node arena, and the reusable
descent-path stack. -/
structure BoundsTree (T : Type) where
  root : Option Nat
  nodes : List (Node T)
  stack : List Nat
deriving DecidableEq

/-- Source `BoundsTree::new`. -/
def BoundsTree.new {T : Type} : BoundsTree T :=
  { root := none, nodes := [], stack := [] }

/-- Source `BoundsTree::push_leaf`: append a leaf, return its index. -/
def pushLeaf {T : Type} (nodes : List (Node T)) (bounds : Bounds) (data : T)
    (order : Nat) : List (Node T) × Nat :=
  (nodes ++ [Node.leaf bounds data order], nodes.length)

/-- Source `BoundsTree::push_internal`: append an internal node whose bounds
and max_ordering merge the two children; `none` if a child index is invalid. -/
def pushInternal {T : Type} (nodes : List (Node T)) (left right : Nat) :
    Option (List (Node T) × Nat) :=
  match nodes[left]?, nodes[right]? with
  | some leftNode, some rightNode =>
      some (nodes ++ [Node.internal left right
              (leftNode.bounds.merge rightNode.bounds)
              (Max.max leftNode.max_ordering rightNode.max_ordering)],
            nodes.length)
  | _, _ => none

/-- Source `BoundsTree::collect_max_ordering`, with fuel for the recursion on
arena indices: fold into `maxOrdering` the orders of all leaves below `index`
that intersect `bounds`, pruning subtrees whose `max_ordering` cannot raise
the running maximum. -/
def collectMaxOrdering {T : Type} (nodes : List (Node T)) :
    Nat → Nat → Bounds → Nat → Option Nat
  | 0, _, _, _ => none
  | fuel + 1, index, bounds, maxOrdering =>
    match nodes[index]? with
    | none => none
    | some (.leaf nodeBounds _ ordering) =>
        if bounds.intersects nodeBounds then
          some (Max.max ordering maxOrdering)
        else
          some maxOrdering
    | some (.internal left right nodeBounds nodeMaxOrdering) =>
        if bounds.intersects nodeBounds ∧ maxOrdering < nodeMaxOrdering then
          match collectMaxOrdering nodes fuel left bounds maxOrdering with
          | none => none
          | some leftMax =>
            match collectMaxOrdering nodes fuel right bounds maxOrdering with
            | none => none
            | some rightMax => some (Max.max leftMax rightMax)
        else
          some maxOrdering

/-- The `while let Node::Internal` descent loop of `BoundsTree::insert`:
widen each visited internal node by the new bounds, record it on the path
stack, collect max orders from the not-descended child, and stop at a leaf.
Returns the final arena, stack, leaf index and running maximum. -/
def insertLoop {T : Type} (newBounds : Bounds) (cf : Nat) :
    Nat → List (Node T) → List Nat → Nat → Nat →
    Option (List (Node T) × List Nat × Nat × Nat)
  | 0, _, _, _, _ => none
  | fuel + 1, nodes, stack, index, maxIntersectingOrdering =>
    match nodes[index]? with
    | none => none
    | some (.leaf _ _ _) => some (nodes, stack, index, maxIntersectingOrdering)
    | some (.internal left right nodeBounds nodeMaxOrdering) =>
      let nodes := nodes.set index
        (Node.internal left right (nodeBounds.merge newBounds) nodeMaxOrdering)
      let stack := stack ++ [index]
      match nodes[left]?, nodes[right]? with
      | some leftNode, some rightNode =>
        let leftCost := (newBounds.merge leftNode.bounds).half_perimeter
        let rightCost := (newBounds.merge rightNode.bounds).half_perimeter
        if leftCost < rightCost then
          match collectMaxOrdering nodes cf right newBounds maxIntersectingOrdering with
          | none => none
          | some maxOrd => insertLoop newBounds cf fuel nodes stack left maxOrd
        else
          match collectMaxOrdering nodes cf left newBounds maxIntersectingOrdering with
          | none => none
          | some maxOrd => insertLoop newBounds cf fuel nodes stack right maxOrd
      | _, _ => none

/-- The final upward fix-up pass of `BoundsTree::insert` (the
`stack.drain(..)` loop): raise `max_ordering` of every node on the descent
path to at least the new leaf's order. -/
def drainMaxOrderings {T : Type} (ordering : Nat) :
    List (Node T) → List Nat → Option (List (Node T))
  | nodes, [] => some nodes
  | nodes, j :: rest =>
    match nodes[j]? with
    | some (.internal l r b m) =>
        drainMaxOrderings ordering
          (nodes.set j (Node.internal l r b (Max.max m ordering))) rest
    | _ => none

/-- Everything `BoundsTree::insert` does after the descent loop: the sibling
intersection check, creation of the new leaf and its new parent, the splice
into the old parent (or the root when the stack is empty, signalled by the
returned `Option Nat`), and the `drain` fix-up.  Returns the new arena, the
new-root signal, and the assigned order. -/
def insertFinish {T : Type} (newBounds : Bounds) (data : T)
    (nodes : List (Node T)) (stack : List Nat) (sibling maxIntersecting : Nat) :
    Option (List (Node T) × Option Nat × Nat) :=
  match nodes[sibling]? with
  | some (.leaf siblingBounds _ siblingOrdering) =>
    let maxIntersecting :=
      if siblingBounds.intersects newBounds then
        Max.max maxIntersecting siblingOrdering
      else maxIntersecting
    let ordering := maxIntersecting + 1
    let pushed := pushLeaf nodes newBounds data ordering
    match pushInternal pushed.1 sibling pushed.2 with
    | none => none
    | some (nodes2, newParent) =>
      match stack.getLast? with
      | some oldParent =>
        match nodes2[oldParent]? with
        | some (.internal left right b m) =>
          let nodes3 :=
            if left = sibling then
              nodes2.set oldParent (Node.internal newParent right b m)
            else
              nodes2.set oldParent (Node.internal left newParent b m)
          match drainMaxOrderings ordering nodes3 stack with
          | none => none
          | some nodes4 => some (nodes4, none, ordering)
        | _ => none
      | none =>
        match drainMaxOrderings ordering nodes2 stack with
        | none => none
        | some nodes4 => some (nodes4, some newParent, ordering)
  | _ => none

/-- Source `BoundsTree::insert`: insert a leaf with the given bounds and
payload, returning the updated tree and the assigned 1-based order.  Fuel for
the loop and the pruned searches is `nodes.length + 1`, which always suffices
on well-formed trees; `none` models nontermination/panics on ill-formed
arenas. -/
def BoundsTree.insert {T : Type} (t : BoundsTree T) (newBounds : Bounds)
    (data : T) : Option (BoundsTree T × Nat) :=
  match t.root with
  | none =>
      let pushed := pushLeaf t.nodes newBounds data 1
      some ({ root := some pushed.2, nodes := pushed.1, stack := t.stack }, 1)
  | some rootIndex =>
      match insertLoop newBounds (t.nodes.length + 1) (t.nodes.length + 1)
          t.nodes t.stack rootIndex 0 with
      | none => none
      | some (nodes, stack, sibling, maxIntersecting) =>
        match insertFinish newBounds data nodes stack sibling maxIntersecting with
        | none => none
        | some (nodes2, rootOpt, ordering) =>
            some ({ root := match rootOpt with
                            | some newRoot => some newRoot
                            | none => t.root
                    nodes := nodes2
                    stack := [] }, ordering)

/-- Source `Primitive<T>`: one item yielded by the iterator. -/
structure Primitive (T : Type) where
  data : T
  bounds : Bounds
  order : Nat
deriving DecidableEq

/-- The explicit-stack depth-first walk inside `BoundsTree::iter`, with fuel:
pop an index; a leaf is yielded, an internal node pushes its left then right
child (so the right child is visited first, as with `Vec::pop`). -/
def iterLoop {T : Type} (nodes : List (Node T)) :
    Nat → List Nat → Option (List (Primitive T))
  | _, [] => some []
  | 0, _ :: _ => none
  | fuel + 1, index :: rest =>
    match nodes[index]? with
    | none => none
    | some (.leaf b d o) =>
      match iterLoop nodes fuel rest with
      | none => none
      | some res => some ({ data := d, bounds := b, order := o } :: res)
    | some (.internal left right _ _) =>
      iterLoop nodes fuel (right :: left :: rest)

/-- Source `BoundsTree::iter`, materialised as the full (finite) list of
yielded primitives. -/
def BoundsTree.iterItems {T : Type} (t : BoundsTree T) :
    Option (List (Primitive T)) :=
  iterLoop t.nodes (t.nodes.length + 1)
    (match t.root with
     | none => []
     | some rootIndex => [rootIndex])

/-- Insert a whole sequence of `(bounds, payload)` pairs starting from the
given tree, collecting the orders returned by each `insert`. -/
def insertAllGo {T : Type} (t : BoundsTree T) :
    List (Bounds × T) → Option (BoundsTree T × List Nat)
  | [] => some (t, [])
  | (b, d) :: rest =>
    match t.insert b d with
    | none => none
    | some (t1, o) =>
      match insertAllGo t1 rest with
      | none => none
      | some (t2, os) => some (t2, o :: os)

/-- Insert a whole sequence into a fresh tree (`BoundsTree::new`). -/
def insertAll {T : Type} (items : List (Bounds × T)) :
    Option (BoundsTree T × List Nat) :=
  insertAllGo BoundsTree.new items

/-!
Abstract layer: the arena, when well-formed, decodes to an inductive binary
tree.  The insertion algorithm is restated structurally on that tree and the
arena code is proven to simulate it; the spec's invariants and the reference
(brute-force) order computation are then settled on the abstract tree.
-/

/-- Abstract view of a subtree stored in the arena. -/
inductive ATree (T : Type) where
  | leaf (bounds : Bounds) (data : T) (order : Nat)
  | internal (bounds : Bounds) (maxOrd : Nat) (left right : ATree T)
deriving DecidableEq

/-- Bounds stored at the root node of an abstract subtree. -/
def ATree.rootBounds {T : Type} : ATree T → Bounds
  | .leaf b _ _ => b
  | .internal b _ _ _ => b

/-- Max-ordering field stored at the root node of an abstract subtree. -/
def ATree.rootMaxOrd {T : Type} : ATree T → Nat
  | .leaf _ _ o => o
  | .internal _ m _ _ => m

/-- The true maximum leaf order of a subtree (exhaustive, ignores the cached
`max_ordering` fields). -/
def ATree.maxLeafOrder {T : Type} : ATree T → Nat
  | .leaf _ _ o => o
  | .internal _ _ l r => Max.max l.maxLeafOrder r.maxLeafOrder

/-- Exhaustive unpruned scan: the maximum order over all leaves of the
subtree whose bounds intersect `nb` (0 when there is none). -/
def ATree.maxIntersect {T : Type} (nb : Bounds) : ATree T → Nat
  | .leaf b _ o => if b.intersects nb then o else 0
  | .internal _ _ l r => Max.max (l.maxIntersect nb) (r.maxIntersect nb)

/-- The multiset of `(bounds, payload, order)` triples at the leaves. -/
def ATree.leavesM {T : Type} : ATree T → Multiset (Bounds × T × Nat)
  | .leaf b d o => {(b, d, o)}
  | .internal _ _ l r => l.leavesM + r.leavesM

/-- Number of nodes of an abstract subtree. -/
def ATree.size {T : Type} : ATree T → Nat
  | .leaf _ _ _ => 1
  | .internal _ _ l r => l.size + r.size + 1

/-- Leaves in the order produced by the iterator's stack walk (right child
before left child, because the source pushes left then right and pops from
the end). -/
def ATree.dfsLeaves {T : Type} : ATree T → List (Primitive T)
  | .leaf b d o => [{ data := d, bounds := b, order := o }]
  | .internal _ _ l r => r.dfsLeaves ++ l.dfsLeaves

/-- Abstract restatement of `collect_max_ordering` on the decoded subtree. -/
def acollect {T : Type} (nb : Bounds) (acc : Nat) : ATree T → Nat
  | .leaf b _ o => if nb.intersects b then Max.max o acc else acc
  | .internal b m l r =>
    if nb.intersects b ∧ acc < m then
      Max.max (acollect nb acc l) (acollect nb acc r)
    else acc

/-- Abstract restatement of the `insert` descent on the decoded subtree:
returns the rebuilt subtree and the order assigned to the new leaf.  The
descent widens every visited node's bounds by `nb`, raises its max-ordering
to the new order, collects max orders from the not-descended child, and at
the bottom pairs the reached sibling leaf with the new leaf under a fresh
internal node. -/
def ainsert {T : Type} (nb : Bounds) (d : T) : ATree T → Nat → ATree T × Nat
  | .leaf b dd o, acc =>
    let acc2 := if b.intersects nb then Max.max acc o else acc
    let ord := acc2 + 1
    (.internal (b.merge nb) (Max.max o ord) (.leaf b dd o) (.leaf nb d ord), ord)
  | .internal b m l r, acc =>
    let leftCost := (nb.merge l.rootBounds).half_perimeter
    let rightCost := (nb.merge r.rootBounds).half_perimeter
    if leftCost < rightCost then
      let res := ainsert nb d l (acollect nb acc r)
      (.internal (b.merge nb) (Max.max m res.2) res.1 r, res.2)
    else
      let res := ainsert nb d r (acollect nb acc l)
      (.internal (b.merge nb) (Max.max m res.2) l res.1, res.2)

/-- Abstract restatement of a full `insert` (including the empty tree case,
which creates a single leaf with order 1). -/
def ainsertO {T : Type} (o : Option (ATree T)) (nb : Bounds) (d : T) :
    Option (ATree T) × Nat :=
  match o with
  | none => (some (.leaf nb d 1), 1)
  | some t =>
    let res := ainsert nb d t 0
    (some res.1, res.2)

/-- Abstract insertion of a whole sequence, collecting the orders. -/
def ainsertAllGo {T : Type} :
    Option (ATree T) → List (Bounds × T) → Option (ATree T) × List Nat
  | o, [] => (o, [])
  | o, (b, d) :: rest =>
    let step := ainsertO o b d
    let more := ainsertAllGo step.1 rest
    (more.1, step.2 :: more.2)

/-- Spec invariant 1 (P2, tight bounds): every internal node's bounds is
exactly the merge of its children's bounds. -/
def ATree.Tight {T : Type} : ATree T → Prop
  | .leaf _ _ _ => True
  | .internal b _ l r =>
    b = l.rootBounds.merge r.rootBounds ∧ l.Tight ∧ r.Tight

/-- Spec invariant 2: every internal node's `max_ordering` equals the maximum
leaf order of its subtree. -/
def ATree.MaxOrdOK {T : Type} : ATree T → Prop
  | .leaf _ _ _ => True
  | .internal _ m l r =>
    m = Max.max l.maxLeafOrder r.maxLeafOrder ∧ l.MaxOrdOK ∧ r.MaxOrdOK

/-- The internal-node invariants of the spec (tight bounds and correct cached
max orders). -/
def ATree.Inv {T : Type} (t : ATree T) : Prop :=
  t.Tight ∧ t.MaxOrdOK

/-- Decoding relation: arena index `i` is the root of a well-formed subtree
occupying exactly the set `S` of arena slots (so subtrees never share slots
and the structure is acyclic). -/
inductive Represents {T : Type} (nodes : List (Node T)) :
    Nat → ATree T → Finset Nat → Prop where
  | leaf (i : Nat) (b : Bounds) (d : T) (o : Nat)
      (hget : nodes[i]? = some (Node.leaf b d o)) :
      Represents nodes i (ATree.leaf b d o) {i}
  | internal (i l r : Nat) (b : Bounds) (m : Nat) (tl tr : ATree T)
      (Sl Sr : Finset Nat)
      (hget : nodes[i]? = some (Node.internal l r b m))
      (hl : Represents nodes l tl Sl) (hr : Represents nodes r tr Sr)
      (hdisj : Disjoint Sl Sr) (hnotmem : i ∉ Sl ∪ Sr) :
      Represents nodes i (ATree.internal b m tl tr) (insert i (Sl ∪ Sr))

/-- Arena-level statement of the tight-bounds invariant: the tree reachable
from the root decodes to an abstract tree all of whose internal nodes are
tight. -/
def BoundsTree.TightArena {T : Type} (t : BoundsTree T) : Prop :=
  t.root = none ∨
  ∃ rootIndex a S, t.root = some rootIndex ∧
    Represents t.nodes rootIndex a S ∧ ATree.Tight a

/-- Arena-level statement of the max-ordering invariant. -/
def BoundsTree.MaxOrdArena {T : Type} (t : BoundsTree T) : Prop :=
  t.root = none ∨
  ∃ rootIndex a S, t.root = some rootIndex ∧
    Represents t.nodes rootIndex a S ∧ ATree.MaxOrdOK a

/-- The spec's containment order on rectangles (used to state that bounds are
only ever widened): `self` contains `other`. -/
def Bounds.contains (self other : Bounds) : Prop :=
  self.min.x ≤ other.min.x ∧ self.min.y ≤ other.min.y ∧
  other.max.x ≤ self.max.x ∧ other.max.y ≤ self.max.y

/-- Modelled from the spec (P5) and the brute-force reference computation in
the source's `test_random_iterations`: the maximum order among already
inserted rectangles (paired with their orders in `hist`) whose bounds
intersect `nb`, defaulting to 0. -/
def bruteMax (nb : Bounds) (hist : List (Bounds × Nat)) : Nat :=
  (hist.map fun e => if e.1.intersects nb then e.2 else 0).foldr Max.max 0

/-- Modelled from the spec (P5): the reference orders for a sequence of
inserts, threading the history of already-assigned `(bounds, order)` pairs:
each new rectangle gets `1 + ` the maximum order of the earlier rectangles it
intersects. -/
def specBruteForceGo {T : Type} (hist : List (Bounds × Nat)) :
    List (Bounds × T) → List Nat
  | [] => []
  | (b, _) :: rest =>
    (bruteMax b hist + 1) ::
      specBruteForceGo (hist ++ [(b, bruteMax b hist + 1)]) rest

/-- Modelled from the spec (P5): the brute-force reference orders for a
sequence of inserts into a fresh tree. -/
def specBruteForceOrders {T : Type} (items : List (Bounds × T)) : List Nat :=
  specBruteForceGo [] items

/-- Whether an abstract subtree is a single leaf. -/
def ATree.isLeaf {T : Type} : ATree T → Bool
  | .leaf _ _ _ => true
  | .internal _ _ _ _ => false

/-- The maximum order among recorded `(bounds, payload, order)` leaves whose
bounds intersect `nb` (0 when there is none), as a multiset fold. -/
def histMaxM {T : Type} (nb : Bounds) (s : Multiset (Bounds × T × Nat)) : Nat :=
  (s.map fun e => if e.1.intersects nb then e.2.2 else 0).sup

/-- Forget the payloads of a history of inserted leaves. -/
def histPairs {T : Type} (hist : List (Bounds × T × Nat)) : List (Bounds × Nat) :=
  hist.map fun e => (e.1, e.2.2)

/-- Pair each inserted item with its assigned order. -/
def histTriples {T : Type} : List (Bounds × T) → List Nat → List (Bounds × T × Nat)
  | [], _ => []
  | _ :: _, [] => []
  | (b, d) :: items, o :: os => (b, d, o) :: histTriples items os

/-- Frame relation for a single arena slot across one `insert`: a leaf is
left untouched; an internal node keeps or widens its bounds and keeps or
raises its `max_ordering`. -/
def NodeWidened {T : Type} : Node T → Node T → Prop
  | .leaf b d o, n2 => n2 = Node.leaf b d o
  | .internal _ _ b m, n2 =>
    ∃ l2 r2 b2 m2, n2 = Node.internal l2 r2 b2 m2 ∧ b2.contains b ∧ m ≤ m2

/-- Abstraction relation between a whole arena tree (with its drained stack)
and an optional abstract tree. -/
def RepArena {T : Type} (t : BoundsTree T) : Option (ATree T) → Prop
  | none => t.stack = [] ∧ t.root = none
  | some a => t.stack = [] ∧ ∃ r S, t.root = some r ∧ Represents t.nodes r a S

/-- Invariant tying the abstract tree to the insertion history: the tree is
well-formed and its leaves are exactly the inserted items with their assigned
orders. -/
def Good {T : Type} : Option (ATree T) → List (Bounds × T × Nat) → Prop
  | none, hist => hist = []
  | some a, hist => a.Inv ∧ a.leavesM = (hist : Multiset (Bounds × T × Nat))

/-- Pointwise decoding of the iterator's index stack. -/
def StackRep {T : Type} (nodes : List (Node T)) :
    List Nat → List (ATree T) → Prop :=
  List.Forall₂ (fun i a => ∃ S, Represents nodes i a S)
/-- Convenience constructor for concrete rectangles (used in the concrete
scenario checks): `mkBounds a b c d` is the rectangle `[a,b]-[c,d]`. -/
def mkBounds (a b c d : ℚ) : Bounds :=
  { min := { x := a, y := b }, max := { x := c, y := d } }

/-! Geometry lemmas about `Bounds`. -/

theorem Bounds.intersects_iff (a b : Bounds) :
    a.intersects b = true ↔
      a.min.x < b.max.x ∧ b.min.x < a.max.x ∧ a.min.y < b.max.y ∧ b.min.y < a.max.y := by
  simp only [Bounds.intersects, Bool.not_or, Bool.and_eq_true, Bool.not_eq_true',
    decide_eq_false_iff_not, not_le]
  tauto

theorem Bounds.intersects_comm (a b : Bounds) : a.intersects b = b.intersects a := by
  rcases h1 : a.intersects b with _ | _ <;> rcases h2 : b.intersects a with _ | _ <;> try rfl
  · rw [Bounds.intersects_iff] at h2
    have := (Bounds.intersects_iff a b).2 ⟨h2.2.1, h2.1, h2.2.2.2, h2.2.2.1⟩
    rw [h1] at this; exact absurd this (by simp)
  · rw [Bounds.intersects_iff] at h1
    have := (Bounds.intersects_iff b a).2 ⟨h1.2.1, h1.1, h1.2.2.2, h1.2.2.1⟩
    rw [h2] at this; exact absurd this (by simp)


theorem Bounds.merge_assoc (a b c : Bounds) : (a.merge b).merge c = a.merge (b.merge c) := by
  simp only [Bounds.merge, min_assoc, max_assoc]

theorem Bounds.merge_right_swap (a b c : Bounds) : (a.merge b).merge c = (a.merge c).merge b := by
  simp only [Bounds.merge, inf_right_comm, sup_right_comm]

theorem Bounds.contains_refl (a : Bounds) : a.contains a := by
  simp [Bounds.contains]

theorem Bounds.contains_trans {a b c : Bounds} (h1 : a.contains b) (h2 : b.contains c) :
    a.contains c := by
  obtain ⟨p1, p2, p3, p4⟩ := h1
  obtain ⟨q1, q2, q3, q4⟩ := h2
  exact ⟨p1.trans q1, p2.trans q2, q3.trans p3, q4.trans p4⟩

theorem Bounds.merge_contains_left (a b : Bounds) : (a.merge b).contains a := by
  simp [Bounds.contains, Bounds.merge, min_le_left, le_max_left]

theorem Bounds.merge_contains_right (a b : Bounds) : (a.merge b).contains b := by
  simp [Bounds.contains, Bounds.merge, min_le_right, le_max_right]

theorem Bounds.intersects_of_contains {big small q : Bounds} (hc : big.contains small)
    (h : q.intersects small = true) : q.intersects big = true := by
  rw [Bounds.intersects_iff] at h ⊢
  obtain ⟨p1, p2, p3, p4⟩ := hc
  obtain ⟨q1, q2, q3, q4⟩ := h
  exact ⟨q1.trans_le p3, p1.trans_lt q2, q3.trans_le p4, p2.trans_lt q4⟩
/-! Constructor-level reduction equations for the structural definitions. -/

theorem Node.bounds_leaf {T : Type} (b : Bounds) (d : T) (o : Nat) :
    (Node.leaf b d o).bounds = b := rfl

theorem Node.bounds_internal {T : Type} (l r : Nat) (b : Bounds) (m : Nat) :
    (Node.internal l r b m : Node T).bounds = b := rfl

theorem Node.max_ordering_leaf {T : Type} (b : Bounds) (d : T) (o : Nat) :
    (Node.leaf b d o).max_ordering = o := rfl

theorem Node.max_ordering_internal {T : Type} (l r : Nat) (b : Bounds) (m : Nat) :
    (Node.internal l r b m : Node T).max_ordering = m := rfl

theorem ATree.rootBounds_leaf {T : Type} (b : Bounds) (d : T) (o : Nat) :
    (ATree.leaf b d o).rootBounds = b := rfl

theorem ATree.rootBounds_internal {T : Type} (b : Bounds) (m : Nat) (l r : ATree T) :
    (ATree.internal b m l r).rootBounds = b := rfl

theorem ATree.rootMaxOrd_leaf {T : Type} (b : Bounds) (d : T) (o : Nat) :
    (ATree.leaf b d o).rootMaxOrd = o := rfl

theorem ATree.rootMaxOrd_internal {T : Type} (b : Bounds) (m : Nat) (l r : ATree T) :
    (ATree.internal b m l r).rootMaxOrd = m := rfl

theorem ATree.maxLeafOrder_leaf {T : Type} (b : Bounds) (d : T) (o : Nat) :
    (ATree.leaf b d o).maxLeafOrder = o := rfl

theorem ATree.maxLeafOrder_internal {T : Type} (b : Bounds) (m : Nat) (l r : ATree T) :
    (ATree.internal b m l r).maxLeafOrder = Max.max l.maxLeafOrder r.maxLeafOrder := rfl

theorem ATree.maxIntersect_leaf {T : Type} (nb b : Bounds) (d : T) (o : Nat) :
    (ATree.leaf b d o).maxIntersect nb = if b.intersects nb then o else 0 := rfl

theorem ATree.maxIntersect_internal {T : Type} (nb b : Bounds) (m : Nat) (l r : ATree T) :
    (ATree.internal b m l r).maxIntersect nb
      = Max.max (l.maxIntersect nb) (r.maxIntersect nb) := rfl

theorem ATree.leavesM_leaf {T : Type} (b : Bounds) (d : T) (o : Nat) :
    (ATree.leaf b d o).leavesM = {(b, d, o)} := rfl

theorem ATree.leavesM_internal {T : Type} (b : Bounds) (m : Nat) (l r : ATree T) :
    (ATree.internal b m l r).leavesM = l.leavesM + r.leavesM := rfl

theorem ATree.size_leaf {T : Type} (b : Bounds) (d : T) (o : Nat) :
    (ATree.leaf b d o).size = 1 := rfl

theorem ATree.size_internal {T : Type} (b : Bounds) (m : Nat) (l r : ATree T) :
    (ATree.internal b m l r).size = l.size + r.size + 1 := rfl

theorem ATree.dfsLeaves_leaf {T : Type} (b : Bounds) (d : T) (o : Nat) :
    (ATree.leaf b d o).dfsLeaves = [{ data := d, bounds := b, order := o }] := rfl

theorem ATree.dfsLeaves_internal {T : Type} (b : Bounds) (m : Nat) (l r : ATree T) :
    (ATree.internal b m l r).dfsLeaves = r.dfsLeaves ++ l.dfsLeaves := rfl

theorem ATree.isLeaf_leaf {T : Type} (b : Bounds) (d : T) (o : Nat) :
    (ATree.leaf b d o).isLeaf = true := rfl

theorem ATree.isLeaf_internal {T : Type} (b : Bounds) (m : Nat) (l r : ATree T) :
    (ATree.internal b m l r).isLeaf = false := rfl

theorem ATree.tight_leaf {T : Type} (b : Bounds) (d : T) (o : Nat) :
    (ATree.leaf b d o).Tight := trivial

theorem ATree.tight_internal_iff {T : Type} (b : Bounds) (m : Nat) (l r : ATree T) :
    (ATree.internal b m l r).Tight
      ↔ b = l.rootBounds.merge r.rootBounds ∧ l.Tight ∧ r.Tight := Iff.rfl

theorem ATree.maxOrdOK_leaf {T : Type} (b : Bounds) (d : T) (o : Nat) :
    (ATree.leaf b d o).MaxOrdOK := trivial

theorem ATree.maxOrdOK_internal_iff {T : Type} (b : Bounds) (m : Nat) (l r : ATree T) :
    (ATree.internal b m l r).MaxOrdOK
      ↔ m = Max.max l.maxLeafOrder r.maxLeafOrder ∧ l.MaxOrdOK ∧ r.MaxOrdOK := Iff.rfl

theorem acollect_leaf {T : Type} (nb : Bounds) (acc : Nat) (b : Bounds) (d : T) (o : Nat) :
    acollect nb acc (ATree.leaf b d o)
      = if nb.intersects b then Max.max o acc else acc := rfl

theorem acollect_internal {T : Type} (nb : Bounds) (acc : Nat) (b : Bounds) (m : Nat)
    (l r : ATree T) :
    acollect nb acc (ATree.internal b m l r)
      = if nb.intersects b ∧ acc < m then
          Max.max (acollect nb acc l) (acollect nb acc r)
        else acc := rfl

theorem ainsert_leaf {T : Type} (nb : Bounds) (d : T) (b : Bounds) (dd : T) (o acc : Nat) :
    ainsert nb d (ATree.leaf b dd o) acc
      = ((ATree.internal (b.merge nb)
            (Max.max o ((if b.intersects nb then Max.max acc o else acc) + 1))
            (ATree.leaf b dd o)
            (ATree.leaf nb d ((if b.intersects nb then Max.max acc o else acc) + 1))),
          (if b.intersects nb then Max.max acc o else acc) + 1) := rfl

theorem ainsert_internal {T : Type} (nb : Bounds) (d : T) (b : Bounds) (m : Nat)
    (l r : ATree T) (acc : Nat) :
    ainsert nb d (ATree.internal b m l r) acc
      = if (nb.merge l.rootBounds).half_perimeter < (nb.merge r.rootBounds).half_perimeter then
          ((ATree.internal (b.merge nb)
              (Max.max m (ainsert nb d l (acollect nb acc r)).2)
              (ainsert nb d l (acollect nb acc r)).1 r),
            (ainsert nb d l (acollect nb acc r)).2)
        else
          ((ATree.internal (b.merge nb)
              (Max.max m (ainsert nb d r (acollect nb acc l)).2)
              l (ainsert nb d r (acollect nb acc l)).1),
            (ainsert nb d r (acollect nb acc l)).2) := rfl
/-! Lemmas about the abstract tree operations. -/

theorem ATree.maxIntersect_le_maxLeafOrder {T : Type} (nb : Bounds) (t : ATree T) :
    t.maxIntersect nb ≤ t.maxLeafOrder := by
  induction t with
  | leaf b d o => rw [ATree.maxIntersect_leaf, ATree.maxLeafOrder_leaf]; split <;> simp
  | internal b m l r ihl ihr =>
    rw [ATree.maxIntersect_internal, ATree.maxLeafOrder_internal]
    exact max_le_max ihl ihr

theorem ATree.maxIntersect_eq_zero_of_not_intersects {T : Type} {t : ATree T} {nb : Bounds}
    (ht : t.Tight) (h : nb.intersects t.rootBounds = false) :
    t.maxIntersect nb = 0 := by
  induction t with
  | leaf b d o =>
    rw [ATree.rootBounds_leaf] at h
    rw [ATree.maxIntersect_leaf]
    rw [Bounds.intersects_comm] at h
    simp [h]
  | internal b m l r ihl ihr =>
    obtain ⟨hb, hl, hr⟩ := ht
    rw [ATree.rootBounds_internal, hb] at h
    have hL : nb.intersects l.rootBounds = false := by
      rcases hx : nb.intersects l.rootBounds with _ | _
      · rfl
      · rw [Bounds.intersects_of_contains (Bounds.merge_contains_left _ _) hx] at h
        exact absurd h (by simp)
    have hR : nb.intersects r.rootBounds = false := by
      rcases hx : nb.intersects r.rootBounds with _ | _
      · rfl
      · rw [Bounds.intersects_of_contains (Bounds.merge_contains_right _ _) hx] at h
        exact absurd h (by simp)
    rw [ATree.maxIntersect_internal, ihl hl hL, ihr hr hR]
    simp

theorem ATree.maxLeafOrder_eq_rootMaxOrd {T : Type} {t : ATree T} (h : t.MaxOrdOK) :
    t.maxLeafOrder = t.rootMaxOrd := by
  cases t with
  | leaf b d o => rfl
  | internal b m l r =>
    obtain ⟨hm, _, _⟩ := h
    rw [ATree.maxLeafOrder_internal, ATree.rootMaxOrd_internal, hm]

theorem acollect_eq {T : Type} (nb : Bounds) :
    ∀ t : ATree T, t.Inv → ∀ acc,
      acollect nb acc t = Max.max acc (t.maxIntersect nb) := by
  intro t
  induction t with
  | leaf b d o =>
    intro _ acc
    rw [acollect_leaf, ATree.maxIntersect_leaf, Bounds.intersects_comm]
    split
    · exact max_comm _ _
    · simp
  | internal b m l r ihl ihr =>
    intro hinv acc
    obtain ⟨⟨hbt, hlt, hrt⟩, hbm, hlm, hrm⟩ := hinv
    rw [acollect_internal, ATree.maxIntersect_internal]
    split
    · rw [ihl ⟨hlt, hlm⟩ acc, ihr ⟨hrt, hrm⟩ acc, max_max_max_comm, max_self]
    · rename_i hcond
      rw [not_and_or, not_lt] at hcond
      have hle : Max.max (l.maxIntersect nb) (r.maxIntersect nb) ≤ acc := by
        rcases hcond with hcond | hcond
        · rw [Bool.not_eq_true] at hcond
          have h0 : (ATree.internal b m l r).maxIntersect nb = 0 :=
            ATree.maxIntersect_eq_zero_of_not_intersects ⟨hbt, hlt, hrt⟩
              (by rw [ATree.rootBounds_internal]; exact hcond)
          rw [ATree.maxIntersect_internal] at h0
          omega
        · calc Max.max (l.maxIntersect nb) (r.maxIntersect nb)
              ≤ Max.max l.maxLeafOrder r.maxLeafOrder :=
                max_le_max (ATree.maxIntersect_le_maxLeafOrder nb l)
                  (ATree.maxIntersect_le_maxLeafOrder nb r)
            _ = m := hbm.symm
            _ ≤ acc := hcond
      omega

theorem ainsert_rootBounds {T : Type} (nb : Bounds) (d : T) (t : ATree T) (acc : Nat) :
    (ainsert nb d t acc).1.rootBounds = t.rootBounds.merge nb := by
  cases t with
  | leaf b dd o => rw [ainsert_leaf, ATree.rootBounds_leaf, ATree.rootBounds_internal]
  | internal b m l r =>
    rw [ainsert_internal, ATree.rootBounds_internal]
    split <;> rw [ATree.rootBounds_internal]

theorem ainsert_snd {T : Type} (nb : Bounds) (d : T) :
    ∀ t : ATree T, t.Inv → ∀ acc,
      (ainsert nb d t acc).2 = Max.max acc (t.maxIntersect nb) + 1 := by
  intro t
  induction t with
  | leaf b dd o =>
    intro _ acc
    rw [ainsert_leaf, ATree.maxIntersect_leaf]
    split <;> simp
  | internal b m l r ihl ihr =>
    intro hinv acc
    obtain ⟨⟨hbt, hlt, hrt⟩, hbm, hlm, hrm⟩ := hinv
    rw [ainsert_internal, ATree.maxIntersect_internal]
    split
    · simp only
      rw [ihl ⟨hlt, hlm⟩, acollect_eq nb r ⟨hrt, hrm⟩, max_assoc,
        max_comm (r.maxIntersect nb)]
    · simp only
      rw [ihr ⟨hrt, hrm⟩, acollect_eq nb l ⟨hlt, hlm⟩, max_assoc]

theorem ainsert_maxLeafOrder {T : Type} (nb : Bounds) (d : T) :
    ∀ (t : ATree T) (acc : Nat),
      (ainsert nb d t acc).1.maxLeafOrder
        = Max.max t.maxLeafOrder (ainsert nb d t acc).2 := by
  intro t
  induction t with
  | leaf b dd o =>
    intro acc
    rw [ainsert_leaf, ATree.maxLeafOrder_leaf]
    rw [ATree.maxLeafOrder_internal, ATree.maxLeafOrder_leaf, ATree.maxLeafOrder_leaf]
  | internal b m l r ihl ihr =>
    intro acc
    rw [ainsert_internal, ATree.maxLeafOrder_internal]
    split <;> simp only <;> rw [ATree.maxLeafOrder_internal]
    · rw [ihl, sup_right_comm]
    · rw [ihr, max_assoc]

theorem ainsert_Inv {T : Type} (nb : Bounds) (d : T) :
    ∀ t : ATree T, t.Inv → ∀ acc, (ainsert nb d t acc).1.Inv := by
  intro t
  induction t with
  | leaf b dd o =>
    intro _ acc
    rw [ainsert_leaf]
    refine ⟨?_, ?_⟩
    · rw [ATree.tight_internal_iff]
      exact ⟨rfl, trivial, trivial⟩
    · rw [ATree.maxOrdOK_internal_iff]
      exact ⟨rfl, trivial, trivial⟩
  | internal b m l r ihl ihr =>
    intro hinv acc
    obtain ⟨⟨hbt, hlt, hrt⟩, hbm, hlm, hrm⟩ := hinv
    rw [ainsert_internal]
    split
    · simp only
      obtain ⟨ht2, hm2⟩ := ihl ⟨hlt, hlm⟩ (acollect nb acc r)
      refine ⟨?_, ?_⟩
      · rw [ATree.tight_internal_iff]
        refine ⟨?_, ht2, hrt⟩
        rw [ainsert_rootBounds, hbt, Bounds.merge_right_swap]
      · rw [ATree.maxOrdOK_internal_iff]
        refine ⟨?_, hm2, hrm⟩
        rw [ainsert_maxLeafOrder, hbm, sup_right_comm]
    · simp only
      obtain ⟨ht2, hm2⟩ := ihr ⟨hrt, hrm⟩ (acollect nb acc l)
      refine ⟨?_, ?_⟩
      · rw [ATree.tight_internal_iff]
        refine ⟨?_, hlt, ht2⟩
        rw [ainsert_rootBounds, hbt, Bounds.merge_assoc]
      · rw [ATree.maxOrdOK_internal_iff]
        refine ⟨?_, hlm, hm2⟩
        rw [ainsert_maxLeafOrder, hbm, max_assoc]

theorem ainsert_rootMaxOrd {T : Type} (nb : Bounds) (d : T) (t : ATree T) (acc : Nat) :
    (ainsert nb d t acc).1.rootMaxOrd
      = Max.max t.rootMaxOrd (ainsert nb d t acc).2 := by
  cases t with
  | leaf b dd o =>
    rw [ainsert_leaf, ATree.rootMaxOrd_leaf, ATree.rootMaxOrd_internal]
  | internal b m l r =>
    rw [ainsert_internal, ATree.rootMaxOrd_internal]
    split <;> rw [ATree.rootMaxOrd_internal]

theorem ainsert_leavesM {T : Type} (nb : Bounds) (d : T) :
    ∀ (t : ATree T) (acc : Nat),
      (ainsert nb d t acc).1.leavesM
        = t.leavesM + {(nb, d, (ainsert nb d t acc).2)} := by
  intro t
  induction t with
  | leaf b dd o =>
    intro acc
    rw [ainsert_leaf, ATree.leavesM_leaf]
    rw [ATree.leavesM_internal, ATree.leavesM_leaf, ATree.leavesM_leaf]
  | internal b m l r ihl ihr =>
    intro acc
    rw [ainsert_internal, ATree.leavesM_internal]
    split <;> simp only <;> rw [ATree.leavesM_internal]
    · rw [ihl]; abel
    · rw [ihr]; abel

theorem ainsert_size {T : Type} (nb : Bounds) (d : T) :
    ∀ (t : ATree T) (acc : Nat), (ainsert nb d t acc).1.size = t.size + 2 := by
  intro t
  induction t with
  | leaf b dd o =>
    intro acc
    rw [ainsert_leaf, ATree.size_leaf, ATree.size_internal, ATree.size_leaf, ATree.size_leaf]
  | internal b m l r ihl ihr =>
    intro acc
    rw [ainsert_internal, ATree.size_internal]
    split <;> simp only <;> rw [ATree.size_internal]
    · rw [ihl]; omega
    · rw [ihr]; omega
/-! Lemmas about the decoding relation `Represents`. -/

theorem Represents.mem_self {T : Type} {nodes : List (Node T)} {i : Nat} {t : ATree T}
    {S : Finset Nat} (h : Represents nodes i t S) : i ∈ S := by
  cases h with
  | leaf i b d o hget => exact Finset.mem_singleton_self i
  | internal i l r b m tl tr Sl Sr hget hl hr hdisj hnotmem => exact Finset.mem_insert_self _ _

theorem Represents.lt_length {T : Type} {nodes : List (Node T)} {i : Nat} {t : ATree T}
    {S : Finset Nat} (h : Represents nodes i t S) : ∀ j ∈ S, j < nodes.length := by
  induction h with
  | leaf i b d o hget =>
    intro j hj
    rw [Finset.mem_singleton] at hj
    subst hj
    exact (List.getElem?_eq_some.mp hget).1
  | internal i l r b m tl tr Sl Sr hget hl hr hdisj hnotmem ihl ihr =>
    intro j hj
    rw [Finset.mem_insert] at hj
    rcases hj with hj | hj
    · subst hj
      exact (List.getElem?_eq_some.mp hget).1
    · rw [Finset.mem_union] at hj
      rcases hj with hj | hj
      · exact ihl j hj
      · exact ihr j hj

theorem Represents.card_eq_size {T : Type} {nodes : List (Node T)} {i : Nat} {t : ATree T}
    {S : Finset Nat} (h : Represents nodes i t S) : S.card = t.size := by
  induction h with
  | leaf i b d o hget => rw [ATree.size_leaf, Finset.card_singleton]
  | internal i l r b m tl tr Sl Sr hget hl hr hdisj hnotmem ihl ihr =>
    rw [ATree.size_internal, Finset.card_insert_of_not_mem hnotmem,
      Finset.card_union_of_disjoint hdisj, ihl, ihr]

theorem Represents.card_le_length {T : Type} {nodes : List (Node T)} {i : Nat} {t : ATree T}
    {S : Finset Nat} (h : Represents nodes i t S) : S.card ≤ nodes.length := by
  calc S.card ≤ (Finset.range nodes.length).card :=
        Finset.card_le_card (fun j hj => Finset.mem_range.mpr (h.lt_length j hj))
    _ = nodes.length := Finset.card_range _

theorem Represents.size_le_length {T : Type} {nodes : List (Node T)} {i : Nat} {t : ATree T}
    {S : Finset Nat} (h : Represents nodes i t S) : t.size ≤ nodes.length :=
  h.card_eq_size ▸ h.card_le_length

theorem Represents.congr {T : Type} {nodes nodes2 : List (Node T)} {i : Nat} {t : ATree T}
    {S : Finset Nat} (h : Represents nodes i t S)
    (hagree : ∀ j ∈ S, nodes2[j]? = nodes[j]?) : Represents nodes2 i t S := by
  induction h with
  | leaf i b d o hget =>
    exact Represents.leaf i b d o ((hagree i (Finset.mem_singleton_self i)).trans hget)
  | internal i l r b m tl tr Sl Sr hget hl hr hdisj hnotmem ihl ihr =>
    refine Represents.internal i l r b m tl tr Sl Sr
      ((hagree i (Finset.mem_insert_self _ _)).trans hget) (ihl ?_) (ihr ?_) hdisj hnotmem
    · intro j hj
      exact hagree j (Finset.mem_insert_of_mem (Finset.mem_union_left _ hj))
    · intro j hj
      exact hagree j (Finset.mem_insert_of_mem (Finset.mem_union_right _ hj))

theorem Represents.set_outside {T : Type} {nodes : List (Node T)} {i : Nat} {t : ATree T}
    {S : Finset Nat} (h : Represents nodes i t S) {k : Nat} (hk : k ∉ S) (x : Node T) :
    Represents (nodes.set k x) i t S :=
  h.congr (fun j hj => List.getElem?_set_ne (fun he => hk (by rw [he]; exact hj)))

theorem Represents.append {T : Type} {nodes : List (Node T)} {i : Nat} {t : ATree T}
    {S : Finset Nat} (h : Represents nodes i t S) (l2 : List (Node T)) :
    Represents (nodes ++ l2) i t S :=
  h.congr (fun j hj => List.getElem?_append_left (h.lt_length j hj))

theorem Represents.root_get {T : Type} {nodes : List (Node T)} {i : Nat} {t : ATree T}
    {S : Finset Nat} (h : Represents nodes i t S) :
    ∃ node, nodes[i]? = some node ∧ node.bounds = t.rootBounds
      ∧ node.max_ordering = t.rootMaxOrd := by
  cases h with
  | leaf i b d o hget =>
    exact ⟨Node.leaf b d o, hget, rfl, rfl⟩
  | internal i l r b m tl tr Sl Sr hget hl hr hdisj hnotmem =>
    exact ⟨Node.internal l r b m, hget, rfl, rfl⟩

/-! Simulation of `collect_max_ordering` by `acollect`. -/

theorem collectMaxOrdering_sim {T : Type} {nodes : List (Node T)} (nb : Bounds) :
    ∀ (t : ATree T) (i : Nat) (S : Finset Nat), Represents nodes i t S →
    ∀ (fuel : Nat), S.card ≤ fuel → ∀ acc,
      collectMaxOrdering nodes fuel i nb acc = some (acollect nb acc t) := by
  intro t
  induction t with
  | leaf b d o =>
    intro i S hrep fuel hfuel acc
    cases hrep with
    | leaf _ _ _ _ hget =>
      rw [Finset.card_singleton] at hfuel
      obtain ⟨fuel, rfl⟩ := Nat.exists_eq_add_of_le hfuel
      rw [Nat.add_comm]
      simp only [collectMaxOrdering, hget, acollect_leaf]
      rw [Bounds.intersects_comm nb b]
      split <;> rfl
  | internal b m l r ihl ihr =>
    intro i S hrep fuel hfuel acc
    cases hrep with
    | internal _ il ir _ _ _ _ Sl Sr hget hl hr hdisj hnotmem =>
      rw [Finset.card_insert_of_not_mem hnotmem, Finset.card_union_of_disjoint hdisj] at hfuel
      obtain ⟨fuel0, rfl⟩ := Nat.exists_eq_add_of_le hfuel
      have hfl : Sl.card ≤ Sl.card + Sr.card + fuel0 := by omega
      have hfr : Sr.card ≤ Sl.card + Sr.card + fuel0 := by omega
      have heq : Sl.card + Sr.card + 1 + fuel0 = (Sl.card + Sr.card + fuel0) + 1 := by omega
      rw [heq]
      simp only [collectMaxOrdering, hget, acollect_internal]
      split
      · rw [ihl il Sl hl _ hfl acc, ihr ir Sr hr _ hfr acc]
      · rfl
/-! Helper list lemmas and the drain fix-up specification. -/

theorem mem_of_getLast_some {α : Type} {l : List α} {a : α} (h : l.getLast? = some a) :
    a ∈ l := by
  have h2 : ∃ hne, a = l.getLast hne := List.mem_getLast?_eq_getLast (by rw [h]; exact rfl)
  obtain ⟨hne, rfl⟩ := h2
  exact List.getLast_mem hne

theorem nodup_concat_of {α : Type} {l : List α} {a : α} (h : l.Nodup) (h2 : a ∉ l) :
    (l ++ [a]).Nodup := by
  rw [List.nodup_append]
  refine ⟨h, List.nodup_singleton a, ?_⟩
  intro x hx hx2
  rw [List.mem_singleton] at hx2
  exact h2 (hx2 ▸ hx)

theorem drainMaxOrderings_spec {T : Type} (ord : Nat) :
    ∀ (stack : List Nat) (nodes : List (Node T)),
    stack.Nodup →
    (∀ j ∈ stack, ∃ l r b m, nodes[j]? = some (Node.internal l r b m)) →
    ∃ nodes2, drainMaxOrderings ord nodes stack = some nodes2
      ∧ nodes2.length = nodes.length
      ∧ (∀ j, j ∉ stack → nodes2[j]? = nodes[j]?)
      ∧ (∀ j ∈ stack, ∀ l r b m, nodes[j]? = some (Node.internal l r b m) →
          nodes2[j]? = some (Node.internal l r b (Max.max m ord))) := by
  intro stack
  induction stack with
  | nil =>
    intro nodes _ _
    exact ⟨nodes, rfl, rfl, fun j _ => rfl, fun j hj => absurd hj (List.not_mem_nil j)⟩
  | cons p rest ih =>
    intro nodes hnodup hint
    obtain ⟨pl, pr, pb, pm, hp⟩ := hint p (List.mem_cons_self p rest)
    have hplen : p < nodes.length := (List.getElem?_eq_some.mp hp).1
    have hnodup2 : rest.Nodup := (List.nodup_cons.mp hnodup).2
    have hpnotin : p ∉ rest := (List.nodup_cons.mp hnodup).1
    set nodesA := nodes.set p (Node.internal pl pr pb (Max.max pm ord)) with hA
    have hArest : ∀ j ∈ rest, ∃ l r b m, nodesA[j]? = some (Node.internal l r b m) := by
      intro j hj
      obtain ⟨l, r, b, m, hjj⟩ := hint j (List.mem_cons_of_mem p hj)
      refine ⟨l, r, b, m, ?_⟩
      rw [hA, List.getElem?_set_ne (fun he => hpnotin (by rw [he]; exact hj)), hjj]
    obtain ⟨nodes2, hrun, hlen, hout, hin⟩ := ih nodesA hnodup2 hArest
    refine ⟨nodes2, ?_, ?_, ?_, ?_⟩
    · simp only [drainMaxOrderings, hp]
      exact hrun
    · rw [hlen, hA, List.length_set]
    · intro j hj
      rw [List.mem_cons, not_or] at hj
      rw [hout j hj.2, hA, List.getElem?_set_ne (fun he => hj.1 he.symm)]
    · intro j hj l r b m hjget
      rw [List.mem_cons] at hj
      rcases hj with rfl | hj
      · rw [hp] at hjget
        simp only [Option.some.injEq, Node.internal.injEq] at hjget
        obtain ⟨rfl, rfl, rfl, rfl⟩ := hjget
        rw [hout j hpnotin, hA, List.getElem?_set_eq_of_lt _ hplen]
      · have hAj : nodesA[j]? = some (Node.internal l r b m) := by
          rw [hA, List.getElem?_set_ne (fun he => hpnotin (by rw [he]; exact hj)), hjget]
        exact hin j hj l r b m hAj
/-! The central simulation theorem: the descent loop plus the finish code of
`insert`, run on an arena subtree, computes exactly the structural `ainsert`
on the decoded subtree, touches only the subtree slots and the path stack,
and appends the two new nodes. -/

theorem insertRun_spec {T : Type} (nb : Bounds) (d : T) :
    ∀ (t : ATree T) (nodes : List (Node T)) (index : Nat) (S : Finset Nat)
      (stack : List Nat) (acc fuel cf : Nat),
    Represents nodes index t S →
    t.size ≤ fuel →
    nodes.length ≤ cf →
    stack.Nodup →
    (∀ j ∈ stack, j ∉ S) →
    (∀ j ∈ stack, ∃ l r b m, nodes[j]? = some (Node.internal l r b m)) →
    (∀ p, stack.getLast? = some p →
      ∀ l r b m, nodes[p]? = some (Node.internal l r b m) → l = index ∨ r = index) →
    ∃ nodes2,
      (match insertLoop nb cf fuel nodes stack index acc with
        | none => none
        | some (ns, st, sib, mi) => insertFinish nb d ns st sib mi)
        = some (nodes2,
            (if stack = [] ∧ t.isLeaf = true then some (nodes.length + 1) else none),
            (ainsert nb d t acc).2)
      ∧ nodes2.length = nodes.length + 2
      ∧ Represents nodes2 (if t.isLeaf = true then nodes.length + 1 else index)
          (ainsert nb d t acc).1 (S ∪ {nodes.length, nodes.length + 1})
      ∧ (∀ j, j ∉ S → j ∉ stack → j < nodes.length → nodes2[j]? = nodes[j]?)
      ∧ (∀ j ∈ stack, ∀ l r b m, nodes[j]? = some (Node.internal l r b m) →
          nodes2[j]? = some (Node.internal
            (if stack.getLast? = some j ∧ t.isLeaf = true ∧ l = index
              then nodes.length + 1 else l)
            (if stack.getLast? = some j ∧ t.isLeaf = true ∧ l ≠ index
              then nodes.length + 1 else r)
            b (Max.max m (ainsert nb d t acc).2))) := by
  intro t
  induction t with
  | leaf b dd o =>
    intro nodes index S stack acc fuel cf hrep hfuel hcf hnodup hdisjS hint hlast
    cases hrep with
    | leaf _ _ _ _ hget =>
    rw [ATree.size_leaf] at hfuel
    obtain ⟨fuel0, rfl⟩ := Nat.exists_eq_add_of_le hfuel
    rw [Nat.add_comm 1 fuel0]
    have hlen : index < nodes.length := (List.getElem?_eq_some.mp hget).1
    have hstlt : ∀ j ∈ stack, j < nodes.length := by
      intro j hj
      obtain ⟨l, r, bb, mm, hjj⟩ := hint j hj
      exact (List.getElem?_eq_some.mp hjj).1
    have hidxstack : index ∉ stack := by
      intro hmem
      exact hdisjS index hmem (Finset.mem_singleton_self index)
    set n := nodes.length with hn
    set ord := (if b.intersects nb then Max.max acc o else acc) + 1 with hord
    set nodesB := nodes ++ [Node.leaf nb d ord] with hB
    set nodesC := nodesB ++ [Node.internal index n (b.merge nb) (Max.max o ord)] with hC
    have hBlen : nodesB.length = n + 1 := by rw [hB]; simp
    have hClen : nodesC.length = n + 2 := by rw [hC, List.length_append, hBlen]; rfl
    have hBi : nodesB[index]? = some (Node.leaf b dd o) := by
      rw [hB, List.getElem?_append_left hlen]; exact hget
    have hBn : nodesB[n]? = some (Node.leaf nb d ord) := by
      rw [hB, hn]; exact List.getElem?_concat_length _ _
    have hCi : nodesC[index]? = some (Node.leaf b dd o) := by
      rw [hC, List.getElem?_append_left (by omega)]; exact hBi
    have hCn : nodesC[n]? = some (Node.leaf nb d ord) := by
      rw [hC, List.getElem?_append_left (by omega)]; exact hBn
    have hCn1 : nodesC[n + 1]? = some (Node.internal index n (b.merge nb) (Max.max o ord)) := by
      rw [hC, ← hBlen]; exact List.getElem?_concat_length _ _
    have hCold : ∀ j, j < n → nodesC[j]? = nodes[j]? := by
      intro j hj
      rw [hC, List.getElem?_append_left (by omega), hB, List.getElem?_append_left hj]
    have hpush : pushInternal nodesB index n = some (nodesC, n + 1) := by
      simp only [pushInternal, hBi, hBn, Node.bounds_leaf, Node.max_ordering_leaf]
      rw [hBlen]
    have hgoal1 : (match insertLoop nb cf (fuel0 + 1) nodes stack index acc with
        | none => none
        | some (ns, st, sib, mi) => insertFinish nb d ns st sib mi)
        = insertFinish nb d nodes stack index acc := by
      simp only [insertLoop, hget]
    rw [hgoal1]
    have hord2 : (ainsert nb d (ATree.leaf b dd o) acc).2 = ord := by
      rw [ainsert_leaf]
    rcases hgl : stack.getLast? with _ | p
    · -- empty stack: the new parent becomes the root
      have hstack0 : stack = [] := by
        cases stack with
        | nil => rfl
        | cons s0 srest => simp at hgl
      subst hstack0
      have hfin : insertFinish nb d nodes [] index acc = some (nodesC, some (n + 1), ord) := by
        simp only [insertFinish, hget, pushLeaf]
        rw [← hord, ← hB]
        simp only [← hn, hpush]
        simp only [List.getLast?_nil, drainMaxOrderings]
      rw [hfin]
      refine ⟨nodesC, ?_, hClen, ?_, ?_, ?_⟩
      · rw [hord2]
        simp [ATree.isLeaf_leaf]
      · have hset : insert (n + 1) ({index} ∪ {n}) = ({index} : Finset Nat) ∪ {n, n + 1} := by
          ext x
          simp only [Finset.mem_insert, Finset.mem_union, Finset.mem_singleton]
          tauto
        rw [ainsert_leaf, ATree.isLeaf_leaf, if_pos rfl]
        have hrepr := Represents.internal (n + 1) index n (b.merge nb)
          (Max.max o ord) (ATree.leaf b dd o) (ATree.leaf nb d ord) {index} {n}
          hCn1 (Represents.leaf index b dd o hCi) (Represents.leaf n nb d ord hCn)
          (by simp only [Finset.disjoint_singleton]; omega)
          (by simp only [Finset.mem_union, Finset.mem_singleton, not_or]; omega)
        rw [hset] at hrepr
        rw [← hord]
        exact hrepr
      · intro j _ _ hj
        exact hCold j hj
      · intro j hj
        exact absurd hj (List.not_mem_nil j)
    · -- nonempty stack: splice the new parent into the old parent, then drain
      have hpmem : p ∈ stack := mem_of_getLast_some hgl
      obtain ⟨pl, pr, pb, pm, hp⟩ := hint p hpmem
      have hCp : nodesC[p]? = some (Node.internal pl pr pb pm) := by
        rw [hCold p (hstlt p hpmem), hp]
      have hplen : p < n := hstlt p hpmem
      have hchild : pl = index ∨ pr = index := hlast p hgl pl pr pb pm hp
      set nodesD := (if pl = index then
          nodesC.set p (Node.internal (n + 1) pr pb pm)
        else
          nodesC.set p (Node.internal pl (n + 1) pb pm)) with hD
      have hDlen : nodesD.length = n + 2 := by
        rw [hD]; split <;> rw [List.length_set, hClen]
      have hDout : ∀ j, j ≠ p → nodesD[j]? = nodesC[j]? := by
        intro j hj
        rw [hD]; split <;> rw [List.getElem?_set_ne (fun he => hj he.symm)]
      have hDp : nodesD[p]? = some (Node.internal
          (if pl = index then n + 1 else pl)
          (if pl = index then pr else n + 1) pb pm) := by
        rw [hD]
        split <;> rw [List.getElem?_set_eq_of_lt _ (by omega)]
      have hDint : ∀ j ∈ stack, ∃ l r bb mm, nodesD[j]? = some (Node.internal l r bb mm) := by
        intro j hj
        by_cases hjp : j = p
        · subst hjp
          exact ⟨_, _, _, _, hDp⟩
        · obtain ⟨l, r, bb, mm, hjj⟩ := hint j hj
          exact ⟨l, r, bb, mm, by rw [hDout j hjp, hCold j (hstlt j hj), hjj]⟩
      obtain ⟨nodes4, hdrain, hlen4, hout4, hin4⟩ := drainMaxOrderings_spec ord stack nodesD
        hnodup hDint
      have hfin : insertFinish nb d nodes stack index acc = some (nodes4, none, ord) := by
        simp only [insertFinish, hget, pushLeaf]
        rw [← hord, ← hB]
        simp only [← hn, hpush, hgl, hCp]
        rw [← hD]
        simp only [hdrain]
      rw [hfin]
      have hstackne : stack ≠ [] := by
        intro h0
        rw [h0] at hgl
        simp at hgl
      refine ⟨nodes4, ?_, by rw [hlen4, hDlen], ?_, ?_, ?_⟩
      · rw [hord2]
        simp [hstackne]
      · have hidx4 : nodes4[index]? = some (Node.leaf b dd o) := by
          rw [hout4 index hidxstack, hDout index (fun he => hidxstack (by rw [he]; exact hpmem)),
            hCi]
        have hn4 : nodes4[n]? = some (Node.leaf nb d ord) := by
          rw [hout4 n (fun hmem => absurd (hstlt n hmem) (by omega)),
            hDout n (by omega), hCn]
        have hn14 : nodes4[n + 1]? = some (Node.internal index n (b.merge nb)
            (Max.max o ord)) := by
          rw [hout4 (n + 1) (fun hmem => absurd (hstlt (n + 1) hmem) (by omega)),
            hDout (n + 1) (by omega), hCn1]
        have hset : insert (n + 1) ({index} ∪ {n}) = ({index} : Finset Nat) ∪ {n, n + 1} := by
          ext x
          simp only [Finset.mem_insert, Finset.mem_union, Finset.mem_singleton]
          tauto
        rw [ainsert_leaf, ATree.isLeaf_leaf, if_pos rfl]
        have hrepr := Represents.internal (n + 1) index n (b.merge nb)
          (Max.max o ord) (ATree.leaf b dd o) (ATree.leaf nb d ord) {index} {n}
          hn14 (Represents.leaf index b dd o hidx4) (Represents.leaf n nb d ord hn4)
          (by simp only [Finset.disjoint_singleton]; omega)
          (by simp only [Finset.mem_union, Finset.mem_singleton, not_or]; omega)
        rw [hset] at hrepr
        rw [← hord]
        exact hrepr
      · intro j hjS hjstack hj
        rw [hout4 j hjstack, hDout j (fun he => hjstack (by rw [he]; exact hpmem)), hCold j hj]
      · intro j hj l r bb mm hjget
        by_cases hjp : j = p
        · subst hjp
          rw [hp] at hjget
          simp only [Option.some.injEq, Node.internal.injEq] at hjget
          obtain ⟨rfl, rfl, rfl, rfl⟩ := hjget
          have hres := hin4 j hj _ _ _ _ hDp
          rw [hres, hord2]
          by_cases hc : pl = index
          · simp [hgl, ATree.isLeaf_leaf, hc]
          · simp [hgl, ATree.isLeaf_leaf, hc]
        · have hCj : nodesC[j]? = some (Node.internal l r bb mm) := by
            rw [hCold j (hstlt j hj), hjget]
          have hres := hin4 j hj l r bb mm (by rw [hDout j hjp, hCj])
          rw [hres, hord2]
          have hgj : stack.getLast? ≠ some j := by
            rw [hgl]
            intro hx
            injection hx with h1
            exact hjp h1.symm
          have hpj : p ≠ j := fun h => hjp h.symm
          simp [hgj, hpj, ATree.isLeaf_leaf]
  | internal b m tl tr ihl ihr =>
    intro nodes index S stack acc fuel cf hrep hfuel hcf hnodup hdisjS hint hlast
    cases hrep with
    | internal _ il ir _ _ _ _ Sl Sr hget hl hr hdisjLR hnotmem =>
    rw [ATree.size_internal] at hfuel
    obtain ⟨fuel1, rfl⟩ := Nat.exists_eq_add_of_le hfuel
    have hfuelshape : tl.size + tr.size + 1 + fuel1 = (tl.size + tr.size + fuel1) + 1 := by omega
    rw [hfuelshape]
    set fuel0 := tl.size + tr.size + fuel1 with hfuel0
    have hlen : index < nodes.length := (List.getElem?_eq_some.mp hget).1
    have hidxstack : index ∉ stack :=
      fun hmem => hdisjS index hmem (Finset.mem_insert_self _ _)
    have hilSl : il ∈ Sl := hl.mem_self
    have hirSr : ir ∈ Sr := hr.mem_self
    have hidxnotSl : index ∉ Sl := fun hx => hnotmem (Finset.mem_union_left _ hx)
    have hidxnotSr : index ∉ Sr := fun hx => hnotmem (Finset.mem_union_right _ hx)
    have hilne : il ≠ index := fun he => hidxnotSl (by rw [← he]; exact hilSl)
    have hirne : ir ≠ index := fun he => hidxnotSr (by rw [← he]; exact hirSr)
    have hilir : il ≠ ir := by
      intro he
      exact (Finset.disjoint_left.mp hdisjLR hilSl) (by rw [he]; exact hirSr)
    set n := nodes.length with hn
    set nodesW := nodes.set index (Node.internal il ir (b.merge nb) m) with hW
    have hWlen : nodesW.length = n := by rw [hW, List.length_set]
    have hWidx : nodesW[index]? = some (Node.internal il ir (b.merge nb) m) := by
      rw [hW]; exact List.getElem?_set_eq_of_lt _ hlen
    have hWout : ∀ j, j ≠ index → nodesW[j]? = nodes[j]? := fun j hj => by
      rw [hW, List.getElem?_set_ne (fun he => hj he.symm)]
    have hWl : Represents nodesW il tl Sl := by
      rw [hW]; exact hl.set_outside hidxnotSl _
    have hWr : Represents nodesW ir tr Sr := by
      rw [hW]; exact hr.set_outside hidxnotSr _
    obtain ⟨nl, hnl, hnlb, hnlm⟩ := hWl.root_get
    obtain ⟨nr, hnr, hnrb, hnrm⟩ := hWr.root_get
    have hloop : insertLoop nb cf (fuel0 + 1) nodes stack index acc
        = (if (nb.merge tl.rootBounds).half_perimeter
              < (nb.merge tr.rootBounds).half_perimeter
           then match collectMaxOrdering nodesW cf ir nb acc with
                | none => none
                | some maxOrd =>
                    insertLoop nb cf fuel0 nodesW (stack ++ [index]) il maxOrd
           else match collectMaxOrdering nodesW cf il nb acc with
                | none => none
                | some maxOrd =>
                    insertLoop nb cf fuel0 nodesW (stack ++ [index]) ir maxOrd) := by
      simp only [insertLoop, hget]
      rw [← hW]
      simp only [hnl, hnr, hnlb, hnrb]
    -- the path stack passed to the recursive call
    have hnodup2 : (stack ++ [index]).Nodup := nodup_concat_of hnodup hidxstack
    have hstack2get : (stack ++ [index]).getLast? = some index := List.getLast?_concat _
    have hstlt : ∀ j ∈ stack, j < n := by
      intro j hj
      obtain ⟨l2, r2, b2, m2, hjj⟩ := hint j hj
      exact (List.getElem?_eq_some.mp hjj).1
    have hint2 : ∀ j ∈ stack ++ [index], ∃ l r bb mm,
        nodesW[j]? = some (Node.internal l r bb mm) := by
      intro j hj
      rw [List.mem_append, List.mem_singleton] at hj
      rcases hj with hj | rfl
      · obtain ⟨l2, r2, b2, m2, hjj⟩ := hint j hj
        exact ⟨l2, r2, b2, m2, by
          rw [hWout j (fun he => hidxstack (by rw [← he]; exact hj)), hjj]⟩
      · exact ⟨il, ir, b.merge nb, m, hWidx⟩
    by_cases hcost : (nb.merge tl.rootBounds).half_perimeter
        < (nb.merge tr.rootBounds).half_perimeter
    · -- descend into the left child, collect from the right child
      have hcoll : collectMaxOrdering nodesW cf ir nb acc = some (acollect nb acc tr) :=
        collectMaxOrdering_sim nb tr ir Sr hWr cf
          (le_trans hr.card_le_length hcf) acc
      set acc2 := acollect nb acc tr with hacc2
      obtain ⟨nodes2, hrun2, hlen2, hrep2, hframe2, hstack2⟩ :=
        ihl nodesW il Sl (stack ++ [index]) acc2 fuel0 cf
          hWl (by omega) (by rw [hWlen]; exact hcf) hnodup2
          (by
            intro j hj
            rw [List.mem_append, List.mem_singleton] at hj
            rcases hj with hj | rfl
            · exact fun hx =>
                hdisjS j hj (Finset.mem_insert_of_mem (Finset.mem_union_left _ hx))
            · exact hidxnotSl)
          hint2
          (by
            intro p hp l2 r2 b2 m2 hpe
            rw [hstack2get] at hp
            injection hp with hp
            subst hp
            rw [hWidx] at hpe
            simp only [Option.some.injEq, Node.internal.injEq] at hpe
            exact Or.inl hpe.1.symm)
      have hins : ainsert nb d (ATree.internal b m tl tr) acc
          = ((ATree.internal (b.merge nb) (Max.max m (ainsert nb d tl acc2).2)
              (ainsert nb d tl acc2).1 tr), (ainsert nb d tl acc2).2) := by
        rw [ainsert_internal, if_pos hcost]
      set ord2 := (ainsert nb d tl acc2).2 with hord2
      set tl2 := (ainsert nb d tl acc2).1 with htl2
      have hordeq : (ainsert nb d (ATree.internal b m tl tr) acc).2 = ord2 := by
        rw [hins]
      have hcomposite : (match insertLoop nb cf (fuel0 + 1) nodes stack index acc with
          | none => none
          | some (ns, st, sib, mi) => insertFinish nb d ns st sib mi)
          = (match insertLoop nb cf fuel0 nodesW (stack ++ [index]) il acc2 with
          | none => none
          | some (ns, st, sib, mi) => insertFinish nb d ns st sib mi) := by
        rw [hloop, if_pos hcost, hcoll]
      refine ⟨nodes2, ?_, by rw [hlen2, hWlen], ?_, ?_, ?_⟩
      · rw [hcomposite, hrun2, hordeq]
        have h1 : ¬ ((stack ++ [index]) = [] ∧ tl.isLeaf = true) := by simp
        have h2 : ¬ (stack = [] ∧ (ATree.internal b m tl tr).isLeaf = true) := by
          simp [ATree.isLeaf_internal]
        rw [if_neg h1, if_neg h2]
      · -- the internal node at `index` now points at the rebuilt left subtree
        have hq := hstack2 index (by simp) il ir (b.merge nb) m hWidx
        have hij : (some index : Option Nat) = some index := rfl
        have hq2 : nodes2[index]? = some (Node.internal
            (if tl.isLeaf = true then n + 1 else il) ir (b.merge nb)
            (Max.max m ord2)) := by
          rw [hq, hstack2get, hWlen]
          by_cases hleaf : tl.isLeaf = true
          · simp [hleaf]
          · simp [hleaf]
        have hrout : ∀ j ∈ Sr, nodes2[j]? = nodes[j]? := by
          intro j hj
          have h1 : j ∉ Sl := fun hx => (Finset.disjoint_left.mp hdisjLR hx) hj
          have h2 : j ∉ stack ++ [index] := by
            rw [List.mem_append, List.mem_singleton]
            rintro (hjs | rfl)
            · exact hdisjS j hjs
                (Finset.mem_insert_of_mem (Finset.mem_union_right _ hj))
            · exact hidxnotSr hj
          have h3 : j < n := hr.lt_length j hj
          rw [hframe2 j h1 h2 (by rw [hWlen]; exact h3),
            hWout j (fun he => hidxnotSr (by rw [← he]; exact hj))]
        have hrRep : Represents nodes2 ir tr Sr := hr.congr hrout
        rw [hWlen] at hrep2
        have hd2 : Disjoint (Sl ∪ {n, n + 1}) Sr := by
          rw [Finset.disjoint_union_left]
          refine ⟨hdisjLR, ?_⟩
          rw [Finset.disjoint_left]
          intro x hx hxs
          simp only [Finset.mem_insert, Finset.mem_singleton] at hx
          have := hr.lt_length x hxs
          omega
        have hnm2 : index ∉ (Sl ∪ {n, n + 1}) ∪ Sr := by
          simp only [Finset.mem_union, Finset.mem_insert, Finset.mem_singleton, not_or]
          exact ⟨⟨hidxnotSl, by omega, by omega⟩, hidxnotSr⟩
        have hrepr := Represents.internal index
          (if tl.isLeaf = true then n + 1 else il) ir
          (b.merge nb) (Max.max m ord2) tl2 tr (Sl ∪ {n, n + 1}) Sr
          hq2 hrep2 hrRep hd2 hnm2
        have hseteq : insert index ((Sl ∪ {n, n + 1}) ∪ Sr)
            = (insert index (Sl ∪ Sr)) ∪ {n, n + 1} := by
          ext x
          simp only [Finset.mem_insert, Finset.mem_union, Finset.mem_singleton]
          tauto
        rw [hseteq] at hrepr
        rw [ATree.isLeaf_internal, if_neg (by simp), hins]
        exact hrepr
      · intro j hjS hjstack hj
        have h1 : j ∉ Sl :=
          fun hx => hjS (Finset.mem_insert_of_mem (Finset.mem_union_left _ hx))
        have h2 : j ∉ stack ++ [index] := by
          rw [List.mem_append, List.mem_singleton]
          rintro (hjs | rfl)
          · exact hjstack hjs
          · exact hjS (Finset.mem_insert_self _ _)
        rw [hframe2 j h1 h2 (by rw [hWlen]; exact hj),
          hWout j (fun he => hjS (by rw [he]; exact Finset.mem_insert_self _ _))]
      · intro j hj l2 r2 b2 m2 hjget
        have hjne : j ≠ index := fun he => hidxstack (by rw [← he]; exact hj)
        have hWj : nodesW[j]? = some (Node.internal l2 r2 b2 m2) := by
          rw [hWout j hjne, hjget]
        have hq := hstack2 j (by rw [List.mem_append]; exact Or.inl hj) l2 r2 b2 m2 hWj
        have hij : ¬ (index = j) := fun he => hjne he.symm
        rw [hstack2get] at hq
        simp only [Option.some.injEq, hij, false_and, if_false, and_false] at hq
        rw [hq, hordeq]
        rw [if_neg (by simp [ATree.isLeaf_internal]),
          if_neg (by simp [ATree.isLeaf_internal])]
    · -- descend into the right child, collect from the left child
      have hcoll : collectMaxOrdering nodesW cf il nb acc = some (acollect nb acc tl) :=
        collectMaxOrdering_sim nb tl il Sl hWl cf
          (le_trans hl.card_le_length hcf) acc
      set acc2 := acollect nb acc tl with hacc2
      obtain ⟨nodes2, hrun2, hlen2, hrep2, hframe2, hstack2⟩ :=
        ihr nodesW ir Sr (stack ++ [index]) acc2 fuel0 cf
          hWr (by omega) (by rw [hWlen]; exact hcf) hnodup2
          (by
            intro j hj
            rw [List.mem_append, List.mem_singleton] at hj
            rcases hj with hj | rfl
            · exact fun hx =>
                hdisjS j hj (Finset.mem_insert_of_mem (Finset.mem_union_right _ hx))
            · exact hidxnotSr)
          hint2
          (by
            intro p hp l2 r2 b2 m2 hpe
            rw [hstack2get] at hp
            injection hp with hp
            subst hp
            rw [hWidx] at hpe
            simp only [Option.some.injEq, Node.internal.injEq] at hpe
            exact Or.inr hpe.2.1.symm)
      have hins : ainsert nb d (ATree.internal b m tl tr) acc
          = ((ATree.internal (b.merge nb) (Max.max m (ainsert nb d tr acc2).2)
              tl (ainsert nb d tr acc2).1), (ainsert nb d tr acc2).2) := by
        rw [ainsert_internal, if_neg hcost]
      set ord2 := (ainsert nb d tr acc2).2 with hord2
      set tr2 := (ainsert nb d tr acc2).1 with htr2
      have hordeq : (ainsert nb d (ATree.internal b m tl tr) acc).2 = ord2 := by
        rw [hins]
      have hcomposite : (match insertLoop nb cf (fuel0 + 1) nodes stack index acc with
          | none => none
          | some (ns, st, sib, mi) => insertFinish nb d ns st sib mi)
          = (match insertLoop nb cf fuel0 nodesW (stack ++ [index]) ir acc2 with
          | none => none
          | some (ns, st, sib, mi) => insertFinish nb d ns st sib mi) := by
        rw [hloop, if_neg hcost, hcoll]
      refine ⟨nodes2, ?_, by rw [hlen2, hWlen], ?_, ?_, ?_⟩
      · rw [hcomposite, hrun2, hordeq]
        have h1 : ¬ ((stack ++ [index]) = [] ∧ tr.isLeaf = true) := by simp
        have h2 : ¬ (stack = [] ∧ (ATree.internal b m tl tr).isLeaf = true) := by
          simp [ATree.isLeaf_internal]
        rw [if_neg h1, if_neg h2]
      · have hq := hstack2 index (by simp) il ir (b.merge nb) m hWidx
        have hq2 : nodes2[index]? = some (Node.internal
            il (if tr.isLeaf = true then n + 1 else ir) (b.merge nb)
            (Max.max m ord2)) := by
          rw [hq, hstack2get, hWlen]
          by_cases hleaf : tr.isLeaf = true
          · simp [hleaf, hilir]
          · simp [hleaf, hilir]
        have hlout : ∀ j ∈ Sl, nodes2[j]? = nodes[j]? := by
          intro j hj
          have h1 : j ∉ Sr := fun hx => (Finset.disjoint_left.mp hdisjLR hj) hx
          have h2 : j ∉ stack ++ [index] := by
            rw [List.mem_append, List.mem_singleton]
            rintro (hjs | rfl)
            · exact hdisjS j hjs
                (Finset.mem_insert_of_mem (Finset.mem_union_left _ hj))
            · exact hidxnotSl hj
          have h3 : j < n := hl.lt_length j hj
          rw [hframe2 j h1 h2 (by rw [hWlen]; exact h3),
            hWout j (fun he => hidxnotSl (by rw [← he]; exact hj))]
        have hlRep : Represents nodes2 il tl Sl := hl.congr hlout
        rw [hWlen] at hrep2
        have hd2 : Disjoint Sl (Sr ∪ {n, n + 1}) := by
          rw [Finset.disjoint_union_right]
          refine ⟨hdisjLR, ?_⟩
          rw [Finset.disjoint_right]
          intro x hx hxs
          simp only [Finset.mem_insert, Finset.mem_singleton] at hx
          have := hl.lt_length x hxs
          omega
        have hnm2 : index ∉ Sl ∪ (Sr ∪ {n, n + 1}) := by
          simp only [Finset.mem_union, Finset.mem_insert, Finset.mem_singleton, not_or]
          exact ⟨hidxnotSl, hidxnotSr, by omega, by omega⟩
        have hrepr := Represents.internal index
          il (if tr.isLeaf = true then n + 1 else ir)
          (b.merge nb) (Max.max m ord2) tl tr2 Sl (Sr ∪ {n, n + 1})
          hq2 hlRep hrep2 hd2 hnm2
        have hseteq : insert index (Sl ∪ (Sr ∪ {n, n + 1}))
            = (insert index (Sl ∪ Sr)) ∪ {n, n + 1} := by
          ext x
          simp only [Finset.mem_insert, Finset.mem_union, Finset.mem_singleton]
          tauto
        rw [hseteq] at hrepr
        rw [ATree.isLeaf_internal, if_neg (by simp), hins]
        exact hrepr
      · intro j hjS hjstack hj
        have h1 : j ∉ Sr :=
          fun hx => hjS (Finset.mem_insert_of_mem (Finset.mem_union_right _ hx))
        have h2 : j ∉ stack ++ [index] := by
          rw [List.mem_append, List.mem_singleton]
          rintro (hjs | rfl)
          · exact hjstack hjs
          · exact hjS (Finset.mem_insert_self _ _)
        rw [hframe2 j h1 h2 (by rw [hWlen]; exact hj),
          hWout j (fun he => hjS (by rw [he]; exact Finset.mem_insert_self _ _))]
      · intro j hj l2 r2 b2 m2 hjget
        have hjne : j ≠ index := fun he => hidxstack (by rw [← he]; exact hj)
        have hWj : nodesW[j]? = some (Node.internal l2 r2 b2 m2) := by
          rw [hWout j hjne, hjget]
        have hq := hstack2 j (by rw [List.mem_append]; exact Or.inl hj) l2 r2 b2 m2 hWj
        have hij : ¬ (index = j) := fun he => hjne he.symm
        rw [hstack2get] at hq
        simp only [Option.some.injEq, hij, false_and, if_false, and_false] at hq
        rw [hq, hordeq]
        rw [if_neg (by simp [ATree.isLeaf_internal]),
          if_neg (by simp [ATree.isLeaf_internal])]
/-! Bridging the structural maximum computations with the insertion history. -/

theorem ATree.maxIntersect_eq_histMaxM {T : Type} (nb : Bounds) (t : ATree T) :
    t.maxIntersect nb = histMaxM nb t.leavesM := by
  induction t with
  | leaf b d o =>
    rw [ATree.maxIntersect_leaf, ATree.leavesM_leaf, histMaxM,
      Multiset.map_singleton, Multiset.sup_singleton]
  | internal b m l r ihl ihr =>
    rw [ATree.maxIntersect_internal, ATree.leavesM_internal, histMaxM,
      Multiset.map_add, Multiset.sup_add, ihl, ihr, histMaxM, histMaxM]

theorem histMaxM_coe_eq_bruteMax {T : Type} (nb : Bounds)
    (hist : List (Bounds × T × Nat)) :
    histMaxM nb (hist : Multiset (Bounds × T × Nat)) = bruteMax nb (histPairs hist) := by
  rw [histMaxM, bruteMax, histPairs, List.map_map, Multiset.map_coe, Multiset.sup_coe]
  rfl

theorem ainsertO_good {T : Type} (o : Option (ATree T))
    (hist : List (Bounds × T × Nat)) (nb : Bounds) (d : T) (h : Good o hist) :
    (ainsertO o nb d).2 = bruteMax nb (histPairs hist) + 1
    ∧ Good (ainsertO o nb d).1 (hist ++ [(nb, d, (ainsertO o nb d).2)]) := by
  cases o with
  | none =>
    have hhist : hist = [] := h
    subst hhist
    refine ⟨rfl, ⟨trivial, trivial⟩, ?_⟩
    rw [ATree.leavesM_leaf]
    rfl
  | some a =>
    obtain ⟨hinv, hleaves⟩ := h
    have hproj2 : (ainsertO (some a) nb d).2 = (ainsert nb d a 0).2 := rfl
    have hord : (ainsert nb d a 0).2 = bruteMax nb (histPairs hist) + 1 := by
      rw [ainsert_snd nb d a hinv 0, ATree.maxIntersect_eq_histMaxM, hleaves,
        histMaxM_coe_eq_bruteMax, max_eq_right (Nat.zero_le _)]
    rw [hproj2]
    refine ⟨hord, ainsert_Inv nb d a hinv 0, ?_⟩
    rw [ainsert_leavesM, hleaves, ← Multiset.coe_singleton, Multiset.coe_add]
/-! Simulation of a full `insert` call on a well-formed tree. -/

theorem insert_sim {T : Type} (t : BoundsTree T) (o : Option (ATree T)) (nb : Bounds)
    (d : T) (h : RepArena t o) :
    ∃ t2, t.insert nb d = some (t2, (ainsertO o nb d).2)
      ∧ RepArena t2 (ainsertO o nb d).1 := by
  cases o with
  | none =>
    obtain ⟨hstack, hroot⟩ := h
    refine ⟨{ root := some t.nodes.length,
              nodes := t.nodes ++ [Node.leaf nb d 1],
              stack := t.stack }, ?_, ?_⟩
    · simp only [BoundsTree.insert, hroot]
      rfl
    · refine ⟨hstack, t.nodes.length, {t.nodes.length}, rfl, ?_⟩
      exact Represents.leaf _ nb d 1 (List.getElem?_concat_length _ _)
  | some a =>
    obtain ⟨hstack, r, S, hroot, hrep⟩ := h
    obtain ⟨nodes2, hrun, hlen2, hrep2, hframe2, hstack2⟩ :=
      insertRun_spec nb d a t.nodes r S t.stack 0 (t.nodes.length + 1)
        (t.nodes.length + 1) hrep
        (le_trans hrep.size_le_length (Nat.le_succ _))
        (Nat.le_succ _)
        (by rw [hstack]; exact List.nodup_nil)
        (by rw [hstack]; intro j hj; exact absurd hj (List.not_mem_nil j))
        (by rw [hstack]; intro j hj; exact absurd hj (List.not_mem_nil j))
        (by rw [hstack]; intro p hp; simp at hp)
    rcases hloopres : insertLoop nb (t.nodes.length + 1) (t.nodes.length + 1)
        t.nodes t.stack r 0 with _ | res
    · rw [hloopres] at hrun
      exact absurd hrun (by simp)
    · obtain ⟨ns, st, sib, mi⟩ := res
      rw [hloopres] at hrun
      refine ⟨{ root := (match (if t.stack = [] ∧ a.isLeaf = true
                          then some (t.nodes.length + 1) else none) with
                        | some newRoot => some newRoot
                        | none => t.root),
                nodes := nodes2, stack := [] }, ?_, ?_⟩
      · simp only [BoundsTree.insert, hroot, hloopres]
        have hfin : insertFinish nb d ns st sib mi
            = some (nodes2, if t.stack = [] ∧ a.isLeaf = true
                then some (t.nodes.length + 1) else none, (ainsert nb d a 0).2) := hrun
        rw [hfin]
        rfl
      · refine ⟨rfl, (if a.isLeaf = true then t.nodes.length + 1 else r),
          S ∪ {t.nodes.length, t.nodes.length + 1}, ?_, hrep2⟩
        by_cases hleaf : a.isLeaf = true
        · rw [if_pos ⟨hstack, hleaf⟩, if_pos hleaf]
        · rw [if_neg (fun hx => hleaf hx.2), if_neg hleaf, hroot]
/-! Simulation and specification of whole insertion sequences. -/

theorem insertAllGo_sim {T : Type} :
    ∀ (items : List (Bounds × T)) (t : BoundsTree T) (o : Option (ATree T))
      (hist : List (Bounds × T × Nat)),
    RepArena t o → Good o hist →
    ∃ t2, insertAllGo t items = some (t2, (ainsertAllGo o items).2)
      ∧ RepArena t2 (ainsertAllGo o items).1
      ∧ Good (ainsertAllGo o items).1
          (hist ++ histTriples items (ainsertAllGo o items).2)
      ∧ (ainsertAllGo o items).2 = specBruteForceGo (histPairs hist) items := by
  intro items
  induction items with
  | nil =>
    intro t o hist hreparena hgood
    refine ⟨t, rfl, hreparena, ?_, rfl⟩
    rw [show histTriples ([] : List (Bounds × T)) (ainsertAllGo o ([] : List (Bounds × T))).2
        = [] from rfl, List.append_nil]
    exact hgood
  | cons hd rest ih =>
    intro t o hist hreparena hgood
    obtain ⟨bb, dd⟩ := hd
    obtain ⟨hstep1, hstep2⟩ := ainsertO_good o hist bb dd hgood
    obtain ⟨t1, hins, hrep1⟩ := insert_sim t o bb dd hreparena
    obtain ⟨t2, hrun, hrep2, hgood2, hspec2⟩ :=
      ih t1 (ainsertO o bb dd).1 (hist ++ [(bb, dd, (ainsertO o bb dd).2)]) hrep1 hstep2
    have hgo : ainsertAllGo o ((bb, dd) :: rest)
        = ((ainsertAllGo (ainsertO o bb dd).1 rest).1,
            (ainsertO o bb dd).2 :: (ainsertAllGo (ainsertO o bb dd).1 rest).2) := rfl
    refine ⟨t2, ?_, ?_, ?_, ?_⟩
    · simp only [insertAllGo, hins, hrun, hgo]
    · rw [hgo]
      exact hrep2
    · rw [hgo]
      have hh : histTriples ((bb, dd) :: rest)
          ((ainsertO o bb dd).2 :: (ainsertAllGo (ainsertO o bb dd).1 rest).2)
          = (bb, dd, (ainsertO o bb dd).2)
            :: histTriples rest (ainsertAllGo (ainsertO o bb dd).1 rest).2 := rfl
      rw [hh, show hist ++ ((bb, dd, (ainsertO o bb dd).2)
          :: histTriples rest (ainsertAllGo (ainsertO o bb dd).1 rest).2)
          = (hist ++ [(bb, dd, (ainsertO o bb dd).2)])
            ++ histTriples rest (ainsertAllGo (ainsertO o bb dd).1 rest).2 by
        rw [List.append_assoc]; rfl]
      exact hgood2
    · rw [hgo]
      rw [show specBruteForceGo (histPairs hist) ((bb, dd) :: rest)
          = (bruteMax bb (histPairs hist) + 1)
            :: specBruteForceGo (histPairs hist ++ [(bb, bruteMax bb (histPairs hist) + 1)])
                 rest from rfl]
      rw [← hstep1]
      have hhp : histPairs (hist ++ [(bb, dd, (ainsertO o bb dd).2)])
          = histPairs hist ++ [(bb, (ainsertO o bb dd).2)] := by
        rw [histPairs, histPairs, List.map_append]
        rfl
      rw [← hhp, ← hspec2]

theorem insertAll_sim {T : Type} (items : List (Bounds × T)) :
    ∃ t2, insertAll items = some (t2, specBruteForceOrders items)
      ∧ RepArena t2 (ainsertAllGo none items).1
      ∧ Good (ainsertAllGo none items).1
          (histTriples items (specBruteForceOrders items))
      ∧ (ainsertAllGo none items).2 = specBruteForceOrders items := by
  have hrn : RepArena (BoundsTree.new : BoundsTree T) none := ⟨rfl, rfl⟩
  have hgn : Good (none : Option (ATree T)) [] := rfl
  obtain ⟨t2, hrun, hrep, hgood, hspec⟩ := insertAllGo_sim items BoundsTree.new none [] hrn hgn
  have hs0 : specBruteForceGo (histPairs ([] : List (Bounds × T × Nat))) items
      = specBruteForceOrders items := rfl
  rw [hs0] at hspec
  refine ⟨t2, ?_, hrep, ?_, hspec⟩
  · rw [insertAll, hrun, hspec]
  · rw [← hspec]
    simpa using hgood
/-! Simulation of the iterator's stack walk. -/

theorem ATree.size_pos {T : Type} (t : ATree T) : 1 ≤ t.size := by
  cases t with
  | leaf b d o => rw [ATree.size_leaf]
  | internal b m l r => rw [ATree.size_internal]; omega

theorem iterLoop_sim {T : Type} (nodes : List (Node T)) :
    ∀ (fuel : Nat) (stack : List Nat) (ts : List (ATree T)),
    StackRep nodes stack ts →
    (ts.map ATree.size).sum ≤ fuel →
    iterLoop nodes fuel stack = some (ts.map ATree.dfsLeaves).flatten := by
  intro fuel
  induction fuel with
  | zero =>
    intro stack ts hrep hfuel
    cases hrep with
    | nil => rfl
    | cons hhd htl =>
      exfalso
      rename_i a rest arest
      have h1 := ATree.size_pos a
      simp only [List.map_cons, List.sum_cons] at hfuel
      omega
  | succ fuel ihf =>
    intro stack ts hrep hfuel
    cases hrep with
    | nil => rfl
    | cons hhd htl =>
      rename_i i a rest arest
      obtain ⟨S, hrepS⟩ := hhd
      simp only [List.map_cons, List.sum_cons] at hfuel
      cases hrepS with
      | leaf _ b d o hget =>
        simp only [iterLoop, hget]
        rw [ihf rest arest htl (by rw [ATree.size_leaf] at hfuel; omega)]
        simp [ATree.dfsLeaves_leaf]
      | internal _ il ir b m tl tr Sl Sr hget hL hR hdisj hnm =>
        simp only [iterLoop, hget]
        rw [ihf (ir :: il :: rest) (tr :: tl :: arest)
          (List.Forall₂.cons ⟨Sr, hR⟩ (List.Forall₂.cons ⟨Sl, hL⟩ htl))
          (by
            simp only [List.map_cons, List.sum_cons]
            rw [ATree.size_internal] at hfuel
            omega)]
        simp [ATree.dfsLeaves_internal]

theorem iterItems_sim_none {T : Type} (t : BoundsTree T)
    (h : RepArena t (none : Option (ATree T))) : t.iterItems = some [] := by
  obtain ⟨hstack, hroot⟩ := h
  simp only [BoundsTree.iterItems, hroot]
  rfl

theorem iterItems_sim_some {T : Type} (t : BoundsTree T) (a : ATree T)
    (h : RepArena t (some a)) : t.iterItems = some a.dfsLeaves := by
  obtain ⟨hstack, r, S, hroot, hrep⟩ := h
  simp only [BoundsTree.iterItems, hroot]
  rw [iterLoop_sim t.nodes (t.nodes.length + 1) [r] [a]
    (List.Forall₂.cons ⟨S, hrep⟩ List.Forall₂.nil)
    (by
      simp only [List.map_cons, List.map_nil, List.sum_cons, List.sum_nil]
      have := hrep.size_le_length
      omega)]
  simp

theorem dfsLeaves_multiset {T : Type} (t : ATree T) :
    ((t.dfsLeaves.map (fun p => (p.bounds, p.data, p.order))
      : List (Bounds × T × Nat)) : Multiset (Bounds × T × Nat)) = t.leavesM := by
  induction t with
  | leaf b d o =>
    rw [ATree.dfsLeaves_leaf, ATree.leavesM_leaf]
    rfl
  | internal b m l r ihl ihr =>
    rw [ATree.dfsLeaves_internal, ATree.leavesM_internal, List.map_append,
      ← Multiset.coe_add, ihl, ihr]
    rw [add_comm]

theorem dfsLeaves_length_eq {T : Type} (t : ATree T) :
    t.dfsLeaves.length = Multiset.card t.leavesM := by
  have h := congrArg Multiset.card (dfsLeaves_multiset t)
  simpa using h

theorem histTriples_length {T : Type} :
    ∀ (items : List (Bounds × T)) (os : List Nat), os.length = items.length →
      (histTriples items os).length = items.length := by
  intro items
  induction items with
  | nil => intro os h; rfl
  | cons hd rest ih =>
    intro os h
    obtain ⟨b, d⟩ := hd
    cases os with
    | nil => simp at h
    | cons o os2 =>
      have : (histTriples ((b, d) :: rest) (o :: os2))
          = (b, d, o) :: histTriples rest os2 := rfl
      rw [this, List.length_cons, List.length_cons, ih os2 (by simpa using h)]

theorem histTriples_map_item {T : Type} :
    ∀ (items : List (Bounds × T)) (os : List Nat), os.length = items.length →
      (histTriples items os).map (fun e => (e.1, e.2.1)) = items := by
  intro items
  induction items with
  | nil => intro os h; rfl
  | cons hd rest ih =>
    intro os h
    obtain ⟨b, d⟩ := hd
    cases os with
    | nil => simp at h
    | cons o os2 =>
      have h0 : (histTriples ((b, d) :: rest) (o :: os2))
          = (b, d, o) :: histTriples rest os2 := rfl
      rw [h0, List.map_cons, ih os2 (by simpa using h)]

theorem specBruteForceGo_length {T : Type} :
    ∀ (items : List (Bounds × T)) (hist : List (Bounds × Nat)),
      (specBruteForceGo hist items).length = items.length := by
  intro items
  induction items with
  | nil => intro hist; rfl
  | cons hd rest ih =>
    intro hist
    obtain ⟨b, d⟩ := hd
    have h0 : specBruteForceGo hist ((b, d) :: rest)
        = (bruteMax b hist + 1)
          :: specBruteForceGo (hist ++ [(b, bruteMax b hist + 1)]) rest := rfl
    rw [h0, List.length_cons, List.length_cons, ih]
/-! Properties of the reference (brute-force) orders. -/

theorem bruteMax_ge (nb : Bounds) :
    ∀ (hist : List (Bounds × Nat)) (e : Bounds × Nat), e ∈ hist →
      e.1.intersects nb = true → e.2 ≤ bruteMax nb hist := by
  intro hist
  induction hist with
  | nil =>
    intro e he
    exact absurd he (List.not_mem_nil e)
  | cons hd rest ih =>
    intro e he hi
    rw [List.mem_cons] at he
    have hstep : bruteMax nb (hd :: rest)
        = Max.max (if hd.1.intersects nb then hd.2 else 0) (bruteMax nb rest) := rfl
    rcases he with rfl | he
    · rw [hstep, hi]
      exact le_max_left _ _
    · rw [hstep]
      exact le_trans (ih e he hi) (le_max_right _ _)

theorem specBruteForceGo_pos {T : Type} :
    ∀ (items : List (Bounds × T)) (hist : List (Bounds × Nat)) (k o : Nat),
      (specBruteForceGo hist items)[k]? = some o → 1 ≤ o := by
  intro items
  induction items with
  | nil =>
    intro hist k o h
    simp [specBruteForceGo] at h
  | cons hd rest ih =>
    intro hist k o h
    obtain ⟨b, d⟩ := hd
    have h0 : specBruteForceGo hist ((b, d) :: rest)
        = (bruteMax b hist + 1)
          :: specBruteForceGo (hist ++ [(b, bruteMax b hist + 1)]) rest := rfl
    rw [h0] at h
    cases k with
    | zero =>
      simp only [List.getElem?_cons_zero, Option.some.injEq] at h
      omega
    | succ k2 =>
      rw [List.getElem?_cons_succ] at h
      exact ih _ k2 o h

theorem specBruteForceGo_gt_hist {T : Type} :
    ∀ (items : List (Bounds × T)) (hist : List (Bounds × Nat))
      (j : Nat) (bj : Bounds) (dj : T) (oj : Nat),
      items[j]? = some (bj, dj) →
      (specBruteForceGo hist items)[j]? = some oj →
      ∀ e ∈ hist, e.1.intersects bj = true → e.2 < oj := by
  intro items
  induction items with
  | nil =>
    intro hist j bj dj oj hitem
    simp at hitem
  | cons hd rest ih =>
    intro hist j bj dj oj hitem hord e he hi
    obtain ⟨b, d⟩ := hd
    have h0 : specBruteForceGo hist ((b, d) :: rest)
        = (bruteMax b hist + 1)
          :: specBruteForceGo (hist ++ [(b, bruteMax b hist + 1)]) rest := rfl
    rw [h0] at hord
    cases j with
    | zero =>
      simp only [List.getElem?_cons_zero, Option.some.injEq, Prod.mk.injEq] at hitem hord
      obtain ⟨rfl, rfl⟩ := hitem
      subst hord
      have := bruteMax_ge b hist e he hi
      omega
    | succ j2 =>
      rw [List.getElem?_cons_succ] at hitem hord
      exact ih _ j2 bj dj oj hitem hord e (List.mem_append_left _ he) hi

theorem specBruteForceGo_ordering {T : Type} :
    ∀ (items : List (Bounds × T)) (hist : List (Bounds × Nat))
      (i j : Nat) (bi : Bounds) (di : T) (bj : Bounds) (dj : T) (oi oj : Nat),
      items[i]? = some (bi, di) → items[j]? = some (bj, dj) → i < j →
      bi.intersects bj = true →
      (specBruteForceGo hist items)[i]? = some oi →
      (specBruteForceGo hist items)[j]? = some oj →
      oi < oj := by
  intro items
  induction items with
  | nil =>
    intro hist i j bi di bj dj oi oj hi
    simp at hi
  | cons hd rest ih =>
    intro hist i j bi di bj dj oi oj hii hjj hij hbb hoi hoj
    obtain ⟨b, d⟩ := hd
    have h0 : specBruteForceGo hist ((b, d) :: rest)
        = (bruteMax b hist + 1)
          :: specBruteForceGo (hist ++ [(b, bruteMax b hist + 1)]) rest := rfl
    rw [h0] at hoi hoj
    cases j with
    | zero => omega
    | succ j2 =>
      rw [List.getElem?_cons_succ] at hjj hoj
      cases i with
      | zero =>
        simp only [List.getElem?_cons_zero, Option.some.injEq, Prod.mk.injEq] at hii hoi
        obtain ⟨rfl, rfl⟩ := hii
        subst hoi
        exact specBruteForceGo_gt_hist rest _ j2 bj dj oj hjj hoj
          (b, bruteMax b hist + 1) (List.mem_append_right _ (List.mem_singleton.mpr rfl))
          hbb
      | succ i2 =>
        rw [List.getElem?_cons_succ] at hii hoi
        exact ih _ i2 j2 bi di bj dj oi oj hii hjj (by omega) hbb hoi hoj
/-! Frame lemmas: one insert never mutates a leaf slot and only widens the
bounds and raises the max-ordering of pre-existing internal slots. -/

theorem NodeWidened.rfl {T : Type} (node : Node T) : NodeWidened node node := by
  cases node with
  | leaf b d o => exact Eq.refl _
  | internal l r b m => exact ⟨l, r, b, m, Eq.refl _, Bounds.contains_refl b, le_refl m⟩

theorem NodeWidened.trans {T : Type} {a b c : Node T}
    (h1 : NodeWidened a b) (h2 : NodeWidened b c) : NodeWidened a c := by
  cases a with
  | leaf bb d o =>
    have he : b = Node.leaf bb d o := h1
    rw [he] at h2
    exact h2
  | internal l r bb m =>
    obtain ⟨l2, r2, b2, m2, hbe, hcont, hle⟩ := h1
    rw [hbe] at h2
    obtain ⟨l3, r3, b3, m3, hce, hcont2, hle2⟩ := h2
    exact ⟨l3, r3, b3, m3, hce, Bounds.contains_trans hcont2 hcont, le_trans hle hle2⟩

theorem widened_of_set_widen {T : Type} {nodes : List (Node T)} {k : Nat}
    {l r : Nat} {b : Bounds} {m : Nat} (hk : nodes[k]? = some (Node.internal l r b m))
    {l2 r2 : Nat} {b2 : Bounds} {m2 : Nat} (hb : b2.contains b) (hm : m ≤ m2) :
    ∀ (i : Nat) (node : Node T), nodes[i]? = some node →
      ∃ node2, (nodes.set k (Node.internal l2 r2 b2 m2))[i]? = some node2
        ∧ NodeWidened node node2 := by
  intro i node hi
  by_cases hik : i = k
  · subst hik
    rw [hi] at hk
    injection hk with hk
    subst hk
    refine ⟨Node.internal l2 r2 b2 m2, ?_, l2, r2, b2, m2, Eq.refl _, hb, hm⟩
    exact List.getElem?_set_eq_of_lt _ (List.getElem?_eq_some.mp hi).1
  · exact ⟨node, by rw [List.getElem?_set_ne (fun he => hik he.symm), hi], NodeWidened.rfl node⟩

theorem widened_append {T : Type} (nodes tail : List (Node T)) :
    ∀ (i : Nat) (node : Node T), nodes[i]? = some node →
      ∃ node2, (nodes ++ tail)[i]? = some node2 ∧ NodeWidened node node2 := by
  intro i node hi
  exact ⟨node, by rw [List.getElem?_append_left (List.getElem?_eq_some.mp hi).1, hi],
    NodeWidened.rfl node⟩

theorem pushInternal_frame {T : Type} {nodes : List (Node T)} {l r : Nat}
    {ns : List (Node T)} {np : Nat} (h : pushInternal nodes l r = some (ns, np)) :
    ∀ (i : Nat) (node : Node T), nodes[i]? = some node →
      ∃ node2, ns[i]? = some node2 ∧ NodeWidened node node2 := by
  rcases hl : nodes[l]? with _ | leftNode
  · rw [pushInternal, hl] at h
    exact absurd h (by simp)
  rcases hr : nodes[r]? with _ | rightNode
  · rw [pushInternal, hl, hr] at h
    exact absurd h (by simp)
  rw [pushInternal, hl, hr] at h
  simp only [Option.some.injEq, Prod.mk.injEq] at h
  obtain ⟨rfl, rfl⟩ := h
  exact widened_append nodes _

theorem insertLoop_frame {T : Type} (nb : Bounds) (cf : Nat) :
    ∀ (fuel : Nat) (nodes : List (Node T)) (stack : List Nat) (index acc : Nat)
      (ns : List (Node T)) (st : List Nat) (sib mi : Nat),
    insertLoop nb cf fuel nodes stack index acc = some (ns, st, sib, mi) →
    ∀ (i : Nat) (node : Node T), nodes[i]? = some node →
      ∃ node2, ns[i]? = some node2 ∧ NodeWidened node node2 := by
  intro fuel
  induction fuel with
  | zero =>
    intro nodes stack index acc ns st sib mi h
    simp [insertLoop] at h
  | succ fuel ih =>
    intro nodes stack index acc ns st sib mi h
    rcases hget : nodes[index]? with _ | node0
    · simp [insertLoop, hget] at h
    cases node0 with
    | leaf b d o =>
      simp only [insertLoop, hget, Option.some.injEq, Prod.mk.injEq] at h
      obtain ⟨rfl, rfl, rfl, rfl⟩ := h
      intro i node hi
      exact ⟨node, hi, NodeWidened.rfl node⟩
    | internal left right bb mm =>
      simp only [insertLoop, hget] at h
      set nodesW := nodes.set index (Node.internal left right (bb.merge nb) mm) with hWdef
      have hstep : ∀ (i : Nat) (node : Node T), nodes[i]? = some node →
          ∃ node2, nodesW[i]? = some node2 ∧ NodeWidened node node2 :=
        widened_of_set_widen hget (Bounds.merge_contains_left bb nb) (le_refl mm)
      rcases hgl : nodesW[left]? with _ | leftNode
      · simp [hgl] at h
      rcases hgr : nodesW[right]? with _ | rightNode
      · simp [hgl, hgr] at h
      simp only [hgl, hgr] at h
      split at h
      · rcases hcoll : collectMaxOrdering nodesW cf right nb acc with _ | mOrd
        · simp [hcoll] at h
        · simp only [hcoll] at h
          intro i node hi
          obtain ⟨node1, hi1, hw1⟩ := hstep i node hi
          obtain ⟨node2, hi2, hw2⟩ := ih nodesW (stack ++ [index]) left mOrd ns st sib mi h
            i node1 hi1
          exact ⟨node2, hi2, NodeWidened.trans hw1 hw2⟩
      · rcases hcoll : collectMaxOrdering nodesW cf left nb acc with _ | mOrd
        · simp [hcoll] at h
        · simp only [hcoll] at h
          intro i node hi
          obtain ⟨node1, hi1, hw1⟩ := hstep i node hi
          obtain ⟨node2, hi2, hw2⟩ := ih nodesW (stack ++ [index]) right mOrd ns st sib mi h
            i node1 hi1
          exact ⟨node2, hi2, NodeWidened.trans hw1 hw2⟩

theorem drainMaxOrderings_frame {T : Type} (ord : Nat) :
    ∀ (stack : List Nat) (nodes ns : List (Node T)),
    drainMaxOrderings ord nodes stack = some ns →
    ∀ (i : Nat) (node : Node T), nodes[i]? = some node →
      ∃ node2, ns[i]? = some node2 ∧ NodeWidened node node2 := by
  intro stack
  induction stack with
  | nil =>
    intro nodes ns h
    injection h with h
    subst h
    intro i node hi
    exact ⟨node, hi, NodeWidened.rfl node⟩
  | cons p rest ih =>
    intro nodes ns h
    rcases hget : nodes[p]? with _ | node0
    · simp [drainMaxOrderings, hget] at h
    cases node0 with
    | leaf b d o =>
      simp [drainMaxOrderings, hget] at h
    | internal l r b m =>
      simp only [drainMaxOrderings, hget] at h
      intro i node hi
      obtain ⟨node1, hi1, hw1⟩ :=
        widened_of_set_widen hget (Bounds.contains_refl b) (le_max_left m ord) i node hi
      obtain ⟨node2, hi2, hw2⟩ := ih _ ns h i node1 hi1
      exact ⟨node2, hi2, NodeWidened.trans hw1 hw2⟩

theorem insertFinish_frame {T : Type} (nb : Bounds) (d : T) :
    ∀ (nodes : List (Node T)) (stack : List Nat) (sib mi : Nat)
      (ns : List (Node T)) (ropt : Option Nat) (ord : Nat),
    insertFinish nb d nodes stack sib mi = some (ns, ropt, ord) →
    ∀ (i : Nat) (node : Node T), nodes[i]? = some node →
      ∃ node2, ns[i]? = some node2 ∧ NodeWidened node node2 := by
  intro nodes stack sib mi ns ropt ord h
  rcases hget : nodes[sib]? with _ | node0
  · simp [insertFinish, hget] at h
  cases node0 with
  | internal l r b m =>
    simp [insertFinish, hget] at h
  | leaf b dd o =>
    simp only [insertFinish, hget, pushLeaf] at h
    set ord0 := (if b.intersects nb then Max.max mi o else mi) + 1 with hord0
    set nodesB := nodes ++ [Node.leaf nb d ord0] with hB
    have hwB : ∀ (i : Nat) (node : Node T), nodes[i]? = some node →
        ∃ node2, nodesB[i]? = some node2 ∧ NodeWidened node node2 :=
      widened_append nodes _
    rcases hpush : pushInternal nodesB sib nodes.length with _ | res
    · rw [hpush] at h
      exact absurd h (by simp)
    obtain ⟨ns1, newParent⟩ := res
    rw [hpush] at h
    have hw1 : ∀ (i : Nat) (node : Node T), nodes[i]? = some node →
        ∃ node2, ns1[i]? = some node2 ∧ NodeWidened node node2 := by
      intro i node hi
      obtain ⟨node1, hi1, hww⟩ := hwB i node hi
      obtain ⟨node2, hi2, hww2⟩ := pushInternal_frame hpush i node1 hi1
      exact ⟨node2, hi2, NodeWidened.trans hww hww2⟩
    rcases hgl : stack.getLast? with _ | oldParent
    · simp only [hgl] at h
      rcases hdr : drainMaxOrderings ord0 ns1 stack with _ | ns2
      · rw [hdr] at h
        exact absurd h (by simp)
      rw [hdr] at h
      simp only [Option.some.injEq, Prod.mk.injEq] at h
      obtain ⟨rfl, _, rfl⟩ := h
      intro i node hi
      obtain ⟨node1, hi1, hww⟩ := hw1 i node hi
      obtain ⟨node2, hi2, hww2⟩ := drainMaxOrderings_frame ord0 stack ns1 _ hdr i node1 hi1
      exact ⟨node2, hi2, NodeWidened.trans hww hww2⟩
    · simp only [hgl] at h
      rcases hop : ns1[oldParent]? with _ | opnode
      · rw [hop] at h
        exact absurd h (by simp)
      cases opnode with
      | leaf b2 d2 o2 =>
        rw [hop] at h
        exact absurd h (by simp)
      | internal l2 r2 b2 m2 =>
        rw [hop] at h
        dsimp only at h
        by_cases hsp : l2 = sib
        · rw [if_pos hsp] at h
          rcases hdr : drainMaxOrderings ord0
              (ns1.set oldParent (Node.internal newParent r2 b2 m2)) stack with _ | ns2
          · rw [hdr] at h
            exact absurd h (by simp)
          rw [hdr] at h
          simp only [Option.some.injEq, Prod.mk.injEq] at h
          obtain ⟨rfl, _, rfl⟩ := h
          intro i node hi
          obtain ⟨node1, hi1, hww⟩ := hw1 i node hi
          obtain ⟨node2, hi2, hww2⟩ :=
            widened_of_set_widen hop (Bounds.contains_refl b2) (le_refl m2) i node1 hi1
          obtain ⟨node3, hi3, hww3⟩ := drainMaxOrderings_frame ord0 stack _ _ hdr i node2 hi2
          exact ⟨node3, hi3, NodeWidened.trans (NodeWidened.trans hww hww2) hww3⟩
        · rw [if_neg hsp] at h
          rcases hdr : drainMaxOrderings ord0
              (ns1.set oldParent (Node.internal l2 newParent b2 m2)) stack with _ | ns2
          · rw [hdr] at h
            exact absurd h (by simp)
          rw [hdr] at h
          simp only [Option.some.injEq, Prod.mk.injEq] at h
          obtain ⟨rfl, _, rfl⟩ := h
          intro i node hi
          obtain ⟨node1, hi1, hww⟩ := hw1 i node hi
          obtain ⟨node2, hi2, hww2⟩ :=
            widened_of_set_widen hop (Bounds.contains_refl b2) (le_refl m2) i node1 hi1
          obtain ⟨node3, hi3, hww3⟩ := drainMaxOrderings_frame ord0 stack _ _ hdr i node2 hi2
          exact ⟨node3, hi3, NodeWidened.trans (NodeWidened.trans hww hww2) hww3⟩

theorem insert_frame {T : Type} (t : BoundsTree T) (nb : Bounds) (d : T)
    (t2 : BoundsTree T) (ord : Nat) (h : t.insert nb d = some (t2, ord)) :
    ∀ (i : Nat) (node : Node T), t.nodes[i]? = some node →
      ∃ node2, t2.nodes[i]? = some node2 ∧ NodeWidened node node2 := by
  rcases hroot : t.root with _ | r
  · simp only [BoundsTree.insert, hroot, pushLeaf, Option.some.injEq, Prod.mk.injEq] at h
    obtain ⟨rfl, rfl⟩ := h
    exact widened_append t.nodes _
  · simp only [BoundsTree.insert, hroot] at h
    rcases hloop : insertLoop nb (t.nodes.length + 1) (t.nodes.length + 1)
        t.nodes t.stack r 0 with _ | res
    · rw [hloop] at h
      exact absurd h (by simp)
    obtain ⟨ns0, st0, sib0, mi0⟩ := res
    rw [hloop] at h
    rcases hfin : insertFinish nb d ns0 st0 sib0 mi0 with _ | res2
    · simp only [hfin] at h
      exact absurd h (by simp)
    obtain ⟨ns1, ropt1, ord1⟩ := res2
    simp only [hfin, Option.some.injEq, Prod.mk.injEq] at h
    obtain ⟨rfl, rfl⟩ := h
    intro i node hi
    obtain ⟨node1, hi1, hww⟩ :=
      insertLoop_frame nb (t.nodes.length + 1) (t.nodes.length + 1)
        t.nodes t.stack r 0 ns0 st0 sib0 mi0 hloop i node hi
    obtain ⟨node2, hi2, hww2⟩ :=
      insertFinish_frame nb d ns0 st0 sib0 mi0 ns1 ropt1 ord1 hfin i node1 hi1
    exact ⟨node2, hi2, NodeWidened.trans hww hww2⟩
/-! The claims. -/

/-- C1: for every sequence of inserts into a fresh `BoundsTree`, the order
returned by each `insert(bounds, data)` equals `1 +` the maximum order
previously returned for an earlier-inserted leaf whose bounds intersect the
new bounds (0 if no earlier leaf intersects), i.e. the whole order list is
the brute-force reference list of the spec's P5. -/
theorem claim_C1_orders_match_brute_force (T : Type) (items : List (Bounds × T)) :
    ∃ t, insertAll items = some (t, specBruteForceOrders items) := by
  obtain ⟨t2, hrun, _⟩ := insertAll_sim items
  exact ⟨t2, hrun⟩

/-- C2: for every sequence of inserts and every pair of inserted leaves whose
bounds intersect, the later-inserted leaf's order is strictly greater than
the earlier-inserted one's, and no insert ever returns 0. -/
theorem claim_C2_ordering_invariant (T : Type) (items : List (Bounds × T))
    (t : BoundsTree T) (ords : List Nat) (h : insertAll items = some (t, ords))
    (i j : Nat) (bi : Bounds) (di : T) (bj : Bounds) (dj : T) (oi oj : Nat)
    (hii : items[i]? = some (bi, di)) (hjj : items[j]? = some (bj, dj))
    (hij : i < j) (hbb : bi.intersects bj = true)
    (hoi : ords[i]? = some oi) (hoj : ords[j]? = some oj) :
    oi < oj ∧ ∀ (k o : Nat), ords[k]? = some o → o ≠ 0 := by
  obtain ⟨t2, hrun, _⟩ := insertAll_sim items
  rw [h] at hrun
  simp only [Option.some.injEq, Prod.mk.injEq] at hrun
  obtain ⟨_, rfl⟩ := hrun
  refine ⟨?_, ?_⟩
  · exact specBruteForceGo_ordering items [] i j bi di bj dj oi oj hii hjj hij hbb hoi hoj
  · intro k o hko
    have := specBruteForceGo_pos items [] k o hko
    omega

/-- C2 witness: inserting two overlapping rectangles yields orders 1 and 2,
an instance of the ordering invariant. -/
theorem claim_C2_ordering_invariant_witness :
    (1 : Nat) < 2 ∧ ∀ (k o : Nat), ([1, 2] : List Nat)[k]? = some o → o ≠ 0 :=
  claim_C2_ordering_invariant Nat
    [((mkBounds 0 0 10 10), 0),
     ((mkBounds 5 5 15 15), 1)]
    { root := some 2,
      nodes := [Node.leaf (mkBounds 0 0 10 10) 0 1,
        Node.leaf (mkBounds 5 5 15 15) 1 2,
        Node.internal 0 1 (mkBounds 0 0 15 15) 2],
      stack := [] }
    [1, 2] (by decide) 0 1
    (mkBounds 0 0 10 10) 0
    (mkBounds 5 5 15 15) 1 1 2
    (by decide) (by decide) (by decide) (by decide) (by decide) (by decide)

/-- C3: `intersects` returns true exactly when the rectangles are not
separated along an axis (touching along an edge does not intersect), and
consequently inserting `[0,0]-[10,10]` then `[10,0]-[20,10]` (sharing only
the edge `x = 10`) returns order 1 for the second shape, not 2. -/
theorem claim_C3_edge_policy :
    (∀ a b : Bounds, a.intersects b = true ↔
      ¬ (a.min.x ≥ b.max.x ∨ a.max.x ≤ b.min.x ∨ a.min.y ≥ b.max.y ∨ a.max.y ≤ b.min.y))
    ∧ (insertAll [((mkBounds 0 0 10 10), (0 : Nat)),
        ((mkBounds 10 0 20 10), 1)]).map Prod.snd
      = some [1, 1] := by
  refine ⟨?_, by decide⟩
  intro a b
  rw [Bounds.intersects_iff]
  constructor
  · intro h
    push_neg
    exact ⟨h.1, h.2.1, h.2.2.1, h.2.2.2⟩
  · intro h
    push_neg at h
    exact ⟨h.1, h.2.1, h.2.2.1, h.2.2.2⟩

/-- C4: after every insertion sequence, every internal node of the reachable
tree has bounds exactly equal to the merge of its two children's bounds
(tight, not an over-approximation). -/
theorem claim_C4_tight_bounds (T : Type) (items : List (Bounds × T)) :
    ∃ t ords, insertAll items = some (t, ords) ∧ t.TightArena := by
  obtain ⟨t2, hrun, hrep, hgood, _⟩ := insertAll_sim items
  refine ⟨t2, specBruteForceOrders items, hrun, ?_⟩
  rcases ho : (ainsertAllGo (none : Option (ATree T)) items).1 with _ | a
  · rw [ho] at hrep
    exact Or.inl hrep.2
  · rw [ho] at hrep hgood
    obtain ⟨hstack, r, S, hroot, hrepr⟩ := hrep
    obtain ⟨⟨htight, _⟩, _⟩ := hgood
    exact Or.inr ⟨r, a, S, hroot, hrepr, htight⟩

/-- C5: after every insertion sequence, every internal node's `max_ordering`
field equals the maximum of the `order` fields of the leaves in its
subtree. -/
theorem claim_C5_max_ordering_exact (T : Type) (items : List (Bounds × T)) :
    ∃ t ords, insertAll items = some (t, ords) ∧ t.MaxOrdArena := by
  obtain ⟨t2, hrun, hrep, hgood, _⟩ := insertAll_sim items
  refine ⟨t2, specBruteForceOrders items, hrun, ?_⟩
  rcases ho : (ainsertAllGo (none : Option (ATree T)) items).1 with _ | a
  · rw [ho] at hrep
    exact Or.inl hrep.2
  · rw [ho] at hrep hgood
    obtain ⟨hstack, r, S, hroot, hrepr⟩ := hrep
    obtain ⟨⟨_, hmax⟩, _⟩ := hgood
    exact Or.inr ⟨r, a, S, hroot, hrepr, hmax⟩

/-- C6: on any tree state satisfying the internal-node invariants,
`collect_max_ordering` — including its `max_ordering` pruning test — returns
exactly the maximum of the running maximum and the orders of all leaves of
the subtree whose bounds intersect the query bounds, i.e. the result of the
exhaustive unpruned scan `maxIntersect`. -/
theorem claim_C6_collect_prunes_exactly (T : Type) (nodes : List (Node T)) (i : Nat)
    (a : ATree T) (S : Finset Nat) (hrep : Represents nodes i a S) (hinv : a.Inv)
    (nb : Bounds) (acc fuel : Nat) (hfuel : S.card ≤ fuel) :
    collectMaxOrdering nodes fuel i nb acc = some (Max.max acc (a.maxIntersect nb)) := by
  rw [collectMaxOrdering_sim nb a i S hrep fuel hfuel acc, acollect_eq nb a hinv acc]

/-- C6 witness: the pruned search on a one-leaf arena. -/
theorem claim_C6_collect_prunes_exactly_witness :
    collectMaxOrdering [Node.leaf (mkBounds 0 0 1 1) (0 : Nat) 1] 1 0
      (mkBounds 0 0 1 1) 0
    = some (Max.max 0 ((ATree.leaf (mkBounds 0 0 1 1) (0 : Nat) 1).maxIntersect
          (mkBounds 0 0 1 1))) :=
  claim_C6_collect_prunes_exactly Nat
    [Node.leaf (mkBounds 0 0 1 1) 0 1] 0
    (ATree.leaf (mkBounds 0 0 1 1) 0 1) {0}
    (Represents.leaf 0 _ 0 1 rfl) ⟨trivial, trivial⟩
    (mkBounds 0 0 1 1) 0 1 (by decide)

/-- C7: after inserting n shapes, the iterator yields exactly n items, and
the multiset of (bounds, payload) pairs yielded equals the multiset of pairs
inserted, regardless of traversal order. -/
theorem claim_C7_iterate_containment (T : Type) (items : List (Bounds × T)) :
    ∃ t ords l, insertAll items = some (t, ords) ∧ t.iterItems = some l
      ∧ l.length = items.length
      ∧ ((l.map fun p => (p.bounds, p.data)) : Multiset (Bounds × T))
        = (items : Multiset (Bounds × T)) := by
  obtain ⟨t2, hrun, hrep, hgood, _⟩ := insertAll_sim items
  have hlenords : (specBruteForceOrders items).length = items.length :=
    specBruteForceGo_length items []
  rcases ho : (ainsertAllGo (none : Option (ATree T)) items).1 with _ | a
  · rw [ho] at hrep hgood
    have hh : histTriples items (specBruteForceOrders items) = [] := hgood
    have hlen0 : items.length = 0 := by
      have := histTriples_length items (specBruteForceOrders items) hlenords
      rw [hh] at this
      simpa using this.symm
    have hitems : items = [] := List.length_eq_zero.mp hlen0
    subst hitems
    exact ⟨t2, _, [], hrun, iterItems_sim_none t2 hrep, rfl, rfl⟩
  · rw [ho] at hrep hgood
    obtain ⟨hinv, hleaves⟩ := hgood
    refine ⟨t2, _, a.dfsLeaves, hrun, iterItems_sim_some t2 a hrep, ?_, ?_⟩
    · rw [dfsLeaves_length_eq, hleaves]
      simp only [Multiset.coe_card]
      exact histTriples_length items (specBruteForceOrders items) hlenords
    · have hm := dfsLeaves_multiset a
      rw [hleaves] at hm
      have hmap := congrArg (Multiset.map (fun e : Bounds × T × Nat => (e.1, e.2.1))) hm
      rw [Multiset.map_coe, Multiset.map_coe, List.map_map,
        histTriples_map_item items (specBruteForceOrders items) hlenords] at hmap
      exact hmap

/-- C8: one insert on an existing tree never changes a pre-existing leaf
slot, and only ever widens the bounds and raises the `max_ordering` of a
pre-existing internal slot (`NodeWidened`). -/
theorem claim_C8_insert_frame (T : Type) (t : BoundsTree T) (nb : Bounds) (d : T)
    (t2 : BoundsTree T) (ord : Nat) (h : t.insert nb d = some (t2, ord)) (i : Nat)
    (node : Node T) (hi : t.nodes[i]? = some node) :
    ∃ node2, t2.nodes[i]? = some node2 ∧ NodeWidened node node2 :=
  insert_frame t nb d t2 ord h i node hi

/-- C8 witness: inserting into a one-leaf tree leaves the pre-existing leaf
slot unchanged. -/
theorem claim_C8_insert_frame_witness :
    ∃ node2, ([Node.leaf (mkBounds 0 0 10 10) (0 : Nat) 1,
        Node.leaf (mkBounds 5 5 15 15) 1 2,
        Node.internal 0 1 (mkBounds 0 0 15 15) 2] : List (Node Nat))[0]? = some node2
      ∧ NodeWidened (Node.leaf (mkBounds 0 0 10 10) (0 : Nat) 1) node2 :=
  claim_C8_insert_frame Nat
    { root := some 0,
      nodes := [Node.leaf (mkBounds 0 0 10 10) 0 1],
      stack := [] }
    (mkBounds 5 5 15 15) 1
    { root := some 2,
      nodes := [Node.leaf (mkBounds 0 0 10 10) 0 1,
        Node.leaf (mkBounds 5 5 15 15) 1 2,
        Node.internal 0 1 (mkBounds 0 0 15 15) 2],
      stack := [] }
    2 (by decide) 0
    (Node.leaf (mkBounds 0 0 10 10) 0 1) (by decide)

/-- C9: `intersects` is symmetric, so the sibling check
`sibling_bounds.intersects(new_bounds)` and the collection check
`new_bounds.intersects(node_bounds)` agree. -/
theorem claim_C9_intersects_symmetric (a b : Bounds) :
    a.intersects b = b.intersects a :=
  Bounds.intersects_comm a b

/-- C10: a rectangle intersects itself iff it has positive area, so
inserting the identical degenerate (zero-width) bounds twice returns order 1
both times. -/
theorem claim_C10_degenerate_self_intersection :
    (∀ b : Bounds, b.intersects b = true ↔ (b.min.x < b.max.x ∧ b.min.y < b.max.y))
    ∧ (insertAll [((mkBounds 0 0 0 5), (0 : Nat)),
        ((mkBounds 0 0 0 5), 1)]).map Prod.snd
      = some [1, 1] := by
  refine ⟨?_, by decide⟩
  intro b
  rw [Bounds.intersects_iff]
  tauto
